import Mathlib

/-!
Shallow embedding of the math3d library (vectors, quaternions, 4x4 matrices,
and the scene-graph Transform) over the real numbers, together with proofs
about the claims of its specification.

JavaScript `Number` arithmetic is modelled by exact real arithmetic; the
special values produced by degenerate divisions (NaN, Infinity) are modelled
explicitly where a claim depends on them (see `JSNum` and `quatCtor`).
-/

namespace Math3d

noncomputable section

open Real

/-- The comparison precision used by `util.doublesEqual` (1e-13). -/
def eps : ℝ := 1 / 10 ^ 13

/-- Embedding of `util.doublesEqual(d1, d2)`: |d1 - d2| < 1e-13. -/
def doublesEqual (d1 d2 : ℝ) : Prop := |d1 - d2| < eps

/-- Embedding of `Vector3 { x, y, z }` with numeric fields. -/
structure V3 where
  x : ℝ
  y : ℝ
  z : ℝ
deriving DecidableEq

/-- Embedding of `Vector3.prototype.add` (componentwise sum). -/
def v3add (a b : V3) : V3 := ⟨a.x + b.x, a.y + b.y, a.z + b.z⟩

/-- Embedding of `Vector3.prototype.sub` (componentwise difference). -/
def v3sub (a b : V3) : V3 := ⟨a.x - b.x, a.y - b.y, a.z - b.z⟩

/-- Embedding of `Vector.prototype.equals` specialised to Vector3:
componentwise `doublesEqual`. -/
def v3equals (a b : V3) : Prop :=
  doublesEqual a.x b.x ∧ doublesEqual a.y b.y ∧ doublesEqual a.z b.z

/-- Embedding of `Quaternion { x, y, z, w }` with numeric fields. -/
structure Quat where
  x : ℝ
  y : ℝ
  z : ℝ
  w : ℝ
deriving DecidableEq

/-- The squared magnitude `x*x + y*y + z*z + w*w` used by
`_normalizedCoordinates`. -/
def normSqQ (q : Quat) : ℝ := q.x * q.x + q.y * q.y + q.z * q.z + q.w * q.w

/-- A unit quaternion: the invariant the `_Quaternion` constructor establishes
for every non-degenerate input. -/
def unitQ (q : Quat) : Prop := normSqQ q = 1

/-- Embedding of the `_Quaternion` constructor on numeric input.  It
normalizes the coordinates; on zero-magnitude input `_normalizedCoordinates`
returns `this`, which in the source is NOT the coordinate record but the
enclosing function's dynamic `this` (the JS global object), so all four
fields are then read off the global object as `undefined`.  That degenerate
result, which has no numeric fields, is modelled by `none`. -/
def quatCtor (x y z w : ℝ) : Option Quat :=
  let magnitude := Real.sqrt (x * x + y * y + z * z + w * w)
  if magnitude = 0 then none
  else some ⟨x / magnitude, y / magnitude, z / magnitude, w / magnitude⟩

/-- Embedding of `Quaternion.prototype.equals`: componentwise
`doublesEqual`. -/
def equalsQ (a b : Quat) : Prop :=
  doublesEqual a.x b.x ∧ doublesEqual a.y b.y ∧
  doublesEqual a.z b.z ∧ doublesEqual a.w b.w

/-- The component formulas of `Quaternion.prototype.mul` (Hamilton product,
`this` on the left).  The source feeds these through the normalizing
constructor; `quatMul_unit` below shows that on the unit quaternions the
library actually stores, the renormalization is the identity. -/
def quatMul (a b : Quat) : Quat :=
  ⟨a.x * b.w + a.y * b.z - a.z * b.y + a.w * b.x,
   -a.x * b.z + a.y * b.w + a.z * b.x + a.w * b.y,
   a.x * b.y - a.y * b.x + a.z * b.w + a.w * b.z,
   -a.x * b.x - a.y * b.y - a.z * b.z + a.w * b.w⟩

/-- The component formulas of `Quaternion.prototype.conjugate` (negate x,y,z,
keep w).  As with `quatMul`, the source routes them through the normalizing
constructor, a no-op on unit quaternions. -/
def quatConj (q : Quat) : Quat := ⟨-q.x, -q.y, -q.z, q.w⟩

/-- Embedding of `Quaternion.prototype.mulVector3` (the expanded non-matrix
rotation formula with the twelve `num` products). -/
def quatMulVec (q : Quat) (v : V3) : V3 :=
  let num := q.x * 2
  let num2 := q.y * 2
  let num3 := q.z * 2
  let num4 := q.x * num
  let num5 := q.y * num2
  let num6 := q.z * num3
  let num7 := q.x * num2
  let num8 := q.x * num3
  let num9 := q.y * num3
  let num10 := q.w * num
  let num11 := q.w * num2
  let num12 := q.w * num3
  ⟨(1 - (num5 + num6)) * v.x + (num7 - num12) * v.y + (num8 + num11) * v.z,
   (num7 + num12) * v.x + (1 - (num4 + num6)) * v.y + (num9 - num10) * v.z,
   (num8 - num11) * v.x + (num9 + num10) * v.y + (1 - (num4 + num5)) * v.z⟩

/-- Degrees-to-radians factor `Math.PI / 180`. -/
def degToRad : ℝ := Real.pi / 180

/-- Radians-to-degrees factor `180 / Math.PI`. -/
def radToDeg : ℝ := 180 / Real.pi

/-- Embedding of `Math.atan2(y, x)` as the argument of the complex number
x + y*i (the principal value in (-pi, pi], with atan2(0, 0) = 0). -/
def atan2 (y x : ℝ) : ℝ := Complex.arg ⟨x, y⟩

/-- The four coordinates `_fromEuler` hands to the constructor, for angles
already in radians (the function halves them itself); `c1,s1` come from y,
`c2,s2` from x and `c3,s3` from z, per the z-then-x-then-y convention. -/
def fromEulerRaw (x y z : ℝ) : Quat :=
  let c1 := Real.cos (y / 2)
  let s1 := Real.sin (y / 2)
  let c2 := Real.cos (x / 2)
  let s2 := Real.sin (x / 2)
  let c3 := Real.cos (z / 2)
  let s3 := Real.sin (z / 2)
  ⟨s1 * c2 * s3 + c1 * s2 * c3,
   s1 * c2 * c3 - c1 * s2 * s3,
   c1 * c2 * s3 - s1 * s2 * c3,
   c1 * c2 * c3 + s1 * s2 * s3⟩

/-- Embedding of `Quaternion.Euler(x, y, z)` (degrees): converts to radians
and builds `_fromEuler`'s coordinates through the normalizing constructor. -/
def eulerDeg (x y z : ℝ) : Option Quat :=
  let r := fromEulerRaw (x * degToRad) (y * degToRad) (z * degToRad)
  quatCtor r.x r.y r.z r.w

/-- Embedding of `_normalizeRad`: converts radians to degrees, then the two
while loops shift by multiples of 360 into [0, 360] (an input above 360 lands
in (0, 360], a negative one in [0, 360), anything else is unchanged). -/
def normalizeRad (rad : ℝ) : ℝ :=
  let angle := rad * radToDeg
  if 360 < angle then angle + 360 - 360 * ⌈angle / 360⌉
  else if angle < 0 then angle - 360 * ⌊angle / 360⌋
  else angle

instance (d1 d2 : ℝ) : Decidable (doublesEqual d1 d2) :=
  inferInstanceAs (Decidable (|d1 - d2| < eps))

/-- Embedding of `_getEulerAngles`: the gimbal-lock pole branches on
`x*w - y*z`, otherwise the asin/atan2 extraction for the z-x-y order,
normalized to degrees.  The result object {x, y, z} is modelled as a V3. -/
def getEulerAngles (q : Quat) : V3 :=
  let poleSum := q.x * q.w - q.y * q.z
  if doublesEqual poleSum 0.5 then ⟨90, 0, 0⟩
  else if doublesEqual poleSum (-0.5) then ⟨-90, 0, 0⟩
  else
    let sqw := q.w * q.w
    let sqx := q.x * q.x
    let sqy := q.y * q.y
    let ax := Real.arcsin (2 * q.x * q.w - 2 * q.y * q.z)
    let ay := atan2 (2 * q.x * q.z + 2 * q.y * q.w) (1 - 2 * sqy - 2 * sqx)
    let az := Real.pi - atan2 (2 * q.x * q.y + 2 * q.z * q.w) (1 - 2 * sqy - 2 * sqw)
    ⟨normalizeRad ax, normalizeRad ay, normalizeRad az⟩

/-- Embedding of `Matrix4x4`: the row-major flat 16-value store, written with
the named accessors `m11..m44` (`m_ij = values[4*(i-1)+(j-1)]`). -/
structure M4 where
  m11 : ℝ
  m12 : ℝ
  m13 : ℝ
  m14 : ℝ
  m21 : ℝ
  m22 : ℝ
  m23 : ℝ
  m24 : ℝ
  m31 : ℝ
  m32 : ℝ
  m33 : ℝ
  m34 : ℝ
  m41 : ℝ
  m42 : ℝ
  m43 : ℝ
  m44 : ℝ

/-- Embedding of the generic `Matrix.prototype.mul` specialised to 4x4
(`sum += this.rows[i][k] * matrix.columns[j][k]`, the standard product). -/
def matMul (a b : M4) : M4 :=
  ⟨a.m11 * b.m11 + a.m12 * b.m21 + a.m13 * b.m31 + a.m14 * b.m41,
   a.m11 * b.m12 + a.m12 * b.m22 + a.m13 * b.m32 + a.m14 * b.m42,
   a.m11 * b.m13 + a.m12 * b.m23 + a.m13 * b.m33 + a.m14 * b.m43,
   a.m11 * b.m14 + a.m12 * b.m24 + a.m13 * b.m34 + a.m14 * b.m44,
   a.m21 * b.m11 + a.m22 * b.m21 + a.m23 * b.m31 + a.m24 * b.m41,
   a.m21 * b.m12 + a.m22 * b.m22 + a.m23 * b.m32 + a.m24 * b.m42,
   a.m21 * b.m13 + a.m22 * b.m23 + a.m23 * b.m33 + a.m24 * b.m43,
   a.m21 * b.m14 + a.m22 * b.m24 + a.m23 * b.m34 + a.m24 * b.m44,
   a.m31 * b.m11 + a.m32 * b.m21 + a.m33 * b.m31 + a.m34 * b.m41,
   a.m31 * b.m12 + a.m32 * b.m22 + a.m33 * b.m32 + a.m34 * b.m42,
   a.m31 * b.m13 + a.m32 * b.m23 + a.m33 * b.m33 + a.m34 * b.m43,
   a.m31 * b.m14 + a.m32 * b.m24 + a.m33 * b.m34 + a.m34 * b.m44,
   a.m41 * b.m11 + a.m42 * b.m21 + a.m43 * b.m31 + a.m44 * b.m41,
   a.m41 * b.m12 + a.m42 * b.m22 + a.m43 * b.m32 + a.m44 * b.m42,
   a.m41 * b.m13 + a.m42 * b.m23 + a.m43 * b.m33 + a.m44 * b.m43,
   a.m41 * b.m14 + a.m42 * b.m24 + a.m43 * b.m34 + a.m44 * b.m44⟩

/-- Embedding of `Matrix4x4.prototype.mulVector3`: lift the vector to its
homogeneous Vector4 (w = 1), multiply by the matrix via the generic
`mulVector`, and keep the first three components. -/
def matMulVec3 (m : M4) (v : V3) : V3 :=
  ⟨m.m11 * v.x + m.m12 * v.y + m.m13 * v.z + m.m14 * 1,
   m.m21 * v.x + m.m22 * v.y + m.m23 * v.z + m.m24 * 1,
   m.m31 * v.x + m.m32 * v.y + m.m33 * v.z + m.m34 * 1⟩

/-- Embedding of `Matrix4x4.RotationMatrix(rotation)` (the same twelve `num`
products as `mulVector3`, laid out as a 4x4 with affine last row/column). -/
def rotationMatrix (q : Quat) : M4 :=
  let num := q.x * 2
  let num2 := q.y * 2
  let num3 := q.z * 2
  let num4 := q.x * num
  let num5 := q.y * num2
  let num6 := q.z * num3
  let num7 := q.x * num2
  let num8 := q.x * num3
  let num9 := q.y * num3
  let num10 := q.w * num
  let num11 := q.w * num2
  let num12 := q.w * num3
  ⟨1 - (num5 + num6), num7 - num12, num8 + num11, 0,
   num7 + num12, 1 - (num4 + num6), num9 - num10, 0,
   num8 - num11, num9 + num10, 1 - (num4 + num5), 0,
   0, 0, 0, 1⟩

/-- Embedding of `Matrix4x4.ScaleMatrix(scale)` for a Vector3 scale (a
numeric scale is first converted to the uniform Vector3 by the source). -/
def scaleMatrix (s : V3) : M4 :=
  ⟨s.x, 0, 0, 0,
   0, s.y, 0, 0,
   0, 0, s.z, 0,
   0, 0, 0, 1⟩

/-- Embedding of `Matrix4x4.TranslationMatrix(translation)`. -/
def translationMatrix (t : V3) : M4 :=
  ⟨1, 0, 0, t.x,
   0, 1, 0, t.y,
   0, 0, 1, t.z,
   0, 0, 0, 1⟩

/-- Embedding of `Matrix4x4.TRS(t, r, s) = T.mul(R.mul(S))`. -/
def trs (t : V3) (r : Quat) (s : V3) : M4 :=
  matMul (translationMatrix t) (matMul (rotationMatrix r) (scaleMatrix s))

/-- Vector3.one. -/
def v3one : V3 := ⟨1, 1, 1⟩

/-- Embedding of `Matrix4x4.LocalToWorldMatrix(position, rotation, scale)`
with optional arguments.  A falsy (omitted) scale is defaulted to
`Vector3.one`.  The intended rotation default is assigned to a misspelled
variable `fromRotation`, so an omitted rotation stays `undefined` and
`Matrix4x4.RotationMatrix` then throws a TypeError inside `TRS`; the thrown
call is modelled by `none`. -/
def localToWorldMatrix (position : V3) (rotation : Option Quat) (scale : Option V3) :
    Option M4 :=
  let scaleDefaulted := scale.getD v3one
  match rotation with
  | some r => some (trs position r scaleDefaulted)
  | none => none

/-- The JavaScript numbers produced by the degenerate divisions in
`_getAngleAxis`: an ordinary value, NaN (0/0), or a signed infinity
(x/0 with x nonzero). -/
inductive JSNum where
  | num (r : ℝ)
  | nan
  | inf
  | ninf
deriving DecidableEq

/-- JavaScript division `a / b` including its zero-denominator behavior
(the sign of a JS zero is not modelled; the library never divides by a
negative zero). -/
def jsDiv (a b : ℝ) : JSNum :=
  if b = 0 then (if a = 0 then JSNum.nan else if 0 < a then JSNum.inf else JSNum.ninf)
  else JSNum.num (a / b)

/-- The `_Vector3` constructor's treatment of one argument: a falsy argument
(`!x`, which is true for NaN and for 0) is replaced by 0; an infinite
argument is truthy and would be stored as is, which has no real-number
counterpart, hence `none`. -/
def v3CtorArg : JSNum → Option ℝ
  | JSNum.num r => some r
  | JSNum.nan => some 0
  | JSNum.inf => none
  | JSNum.ninf => none

/-- Embedding of the `_getAngleAxis` view: axis components are the raw
divisions by sqrt(1 - w*w) fed through the Vector3 constructor, the angle is
`2*acos(w)` in degrees.  `none` would mean a non-finite axis component. -/
def getAngleAxis (q : Quat) : Option (V3 × ℝ) :=
  let s := Real.sqrt (1 - q.w * q.w)
  match v3CtorArg (jsDiv q.x s), v3CtorArg (jsDiv q.y s), v3CtorArg (jsDiv q.z s) with
  | some ax, some ay, some az =>
      some (⟨ax, ay, az⟩, 2 * Real.arccos q.w * radToDeg)
  | _, _, _ => none

/-! ### Parent/children bookkeeping (Transform object graph)

For claim C4 only the parent references and children arrays matter.  The
Transform objects are identified by natural numbers; `parent`/`children`
give each object's `_parent` reference and `_children` array.  The mutual
recursion between the `parent` setter, `addChild` and `removeChild` in the
source is bounded (each inner call hits its guard), and is inlined below
exactly along the source's control flow. -/

/-- The parent/children state of a Transform object graph. -/
structure CState where
  parent : Nat → Option Nat
  children : Nat → List Nat

/-- Appends `c` to `p`'s `_children` array (`_children.push(child)`). -/
def pushChild (s : CState) (p c : Nat) : CState :=
  ⟨s.parent, fun i => if i = p then s.children i ++ [c] else s.children i⟩

/-- The `parent` setter with a Transform argument `p`: stores the new parent
(reading locals aside, which the tree model covers) and calls
`_parent.addChild(this)`; inside that call `child.parent === this` already
holds, so it only pushes.  Note that nothing removes `c` from its previous
parent's children array. -/
def jsSetParent (s : CState) (c p : Nat) : CState :=
  pushChild ⟨fun i => if i = c then some p else s.parent i, s.children⟩ p c

/-- The `parent` setter with `undefined`: clears `_parent` and calls
`temp.removeChild(this)` on the old parent; in that call the guard
`child.parent === this` now fails, so it only splices out the first
occurrence.  If there was no old parent, `temp.removeChild` throws
(`undefined` has no method), modelled by `none`. -/
def jsSetParentNone (s : CState) (c : Nat) : Option CState :=
  match s.parent c with
  | none => none
  | some oldp =>
      some ⟨fun i => if i = c then none else s.parent i,
            fun i => if i = oldp then (s.children i).erase c else s.children i⟩

/-- Embedding of `addChild`: when `c` is not already `p`'s child the
`parent` setter runs (which itself pushes `c` onto `p`'s array), and then
the unconditional `_children.push(child)` pushes a second copy. -/
def jsAddChild (s : CState) (p c : Nat) : CState :=
  let s1 := if s.parent c = some p then s else jsSetParent s c p
  pushChild s1 p c

/-- Embedding of `removeChild`: when `c` is `p`'s registered child the
`parent = undefined` path splices one occurrence, and the outer
`indexOf`/`splice` then removes one more if present. -/
def jsRemoveChild (s : CState) (p c : Nat) : CState :=
  if s.parent c = some p then
    ⟨fun i => if i = c then none else s.parent i,
     fun i => if i = p then ((s.children i).erase c).erase c else s.children i⟩
  else
    ⟨s.parent, fun i => if i = p then (s.children i).erase c else s.children i⟩

/-! ### The Transform local/world state (tree model)

For claim C3 a Transform subtree is modelled as a tree of records holding
`_position`, `_rotation`, `_localPosition`, `_localRotation` and the
children, with the parent's world state supplied as an optional `Frame`
(mirroring `transform.parent === undefined` checks).  The setters mirror the
source's property setters; `_adjustChildren` is the fuelled `adjC`. -/

/-- A parent's world state as read by the `_get...` helpers. -/
structure Frame where
  pos : V3
  rot : Quat

/-- A Transform subtree: world position/rotation, local position/rotation,
children. -/
inductive TTree where
  | node (pos : V3) (rot : Quat) (lpos : V3) (lrot : Quat) (children : List TTree)

/-- World position field. -/
def TTree.pos : TTree → V3
  | TTree.node p _ _ _ _ => p

/-- World rotation field. -/
def TTree.rot : TTree → Quat
  | TTree.node _ r _ _ _ => r

/-- Local position field. -/
def TTree.lpos : TTree → V3
  | TTree.node _ _ lp _ _ => lp

/-- Local rotation field. -/
def TTree.lrot : TTree → Quat
  | TTree.node _ _ _ lr _ => lr

/-- Children field. -/
def TTree.children : TTree → List TTree
  | TTree.node _ _ _ _ cs => cs

/-- Embedding of `_getWorldRotationFromLocalRotation`:
`parent.rotation.mul(localRotation)`, or the local rotation at a root. -/
def worldRotFromLocal (pf : Option Frame) (lrot : Quat) : Quat :=
  match pf with
  | none => lrot
  | some f => quatMul f.rot lrot

/-- Embedding of `_getLocalRotationFromWorldRotation`:
`parent.rotation.inverse().mul(rotation)` (inverse = conjugate, routed
through the normalizing constructor, a no-op for the unit rotations a
Transform stores). -/
def localRotFromWorld (pf : Option Frame) (rot : Quat) : Quat :=
  match pf with
  | none => rot
  | some f => quatMul (quatConj f.rot) rot

/-- Embedding of `_getWorldPositionFromLocalPosition`:
`parent.position.add(parent.rotation.mulVector3(localPosition))`. -/
def worldPosFromLocal (pf : Option Frame) (lpos : V3) : V3 :=
  match pf with
  | none => lpos
  | some f => v3add f.pos (quatMulVec f.rot lpos)

/-- Embedding of `_getLocalPositionFromWorldPosition`:
`parent.rotation.inverse().mulVector3(position.sub(parent.position))`. -/
def localPosFromWorld (pf : Option Frame) (pos : V3) : V3 :=
  match pf with
  | none => pos
  | some f => quatMulVec (quatConj f.rot) (v3sub pos f.pos)

/-- Embedding of `_adjustChildren(children)` with explicit fuel (the source
recursion terminates because the tree is finite; any fuel at least the tree
depth computes the same result, see `adjC_depth` and friends).  For each
child the assignment `child.rotation = _getWorldRotationFromLocalRotation
(child)` runs the child's full rotation setter (store the world rotation,
recompute the local rotation, adjust the grandchildren), and then
`child.position = _getWorldPositionFromLocalPosition(child)` runs the full
position setter likewise. -/
def adjC : Nat → Frame → List TTree → List TTree
  | 0, _, cs => cs
  | Nat.succ n, f, cs =>
      cs.map fun c =>
        let r1 := worldRotFromLocal (some f) c.lrot
        let a1 := adjC n ⟨c.pos, r1⟩ c.children
        let p1 := worldPosFromLocal (some f) c.lpos
        TTree.node p1 r1 (localPosFromWorld (some f) p1)
          (localRotFromWorld (some f) r1) (adjC n ⟨p1, r1⟩ a1)

mutual

/-- Depth of a subtree, the fuel bound for `adjC`. -/
def depthT : TTree → Nat
  | TTree.node _ _ _ _ cs => 1 + depthL cs

/-- Depth of a forest. -/
def depthL : List TTree → Nat
  | [] => 0
  | c :: cs => max (depthT c) (depthL cs)

end

/-- The world `position` setter: store the value, recompute
`_localPosition` from the parent, `_adjustChildren(_children)` (which reads
this node's unchanged rotation and new position). -/
def setPosW (pf : Option Frame) (t : TTree) (v : V3) : TTree :=
  TTree.node v t.rot (localPosFromWorld pf v) t.lrot
    (adjC (depthL t.children) ⟨v, t.rot⟩ t.children)

/-- The world `rotation` setter: store the value, recompute
`_localRotation`, adjust the children against the new rotation and the
unchanged position. -/
def setRotW (pf : Option Frame) (t : TTree) (v : Quat) : TTree :=
  TTree.node t.pos v t.lpos (localRotFromWorld pf v)
    (adjC (depthL t.children) ⟨t.pos, v⟩ t.children)

/-- The `localPosition` setter: store the value and recompute `_position`;
the children are not touched. -/
def setLocalPos (pf : Option Frame) (t : TTree) (v : V3) : TTree :=
  TTree.node (worldPosFromLocal pf v) t.rot v t.lrot t.children

/-- The `localRotation` setter: store the value and recompute `_rotation`;
the children are not touched. -/
def setLocalRot (pf : Option Frame) (t : TTree) (v : Quat) : TTree :=
  TTree.node t.pos (worldRotFromLocal pf v) t.lpos v t.children

/-- The `parent` setter with a Transform argument, seen from the child:
keep the world state, recompute both locals against the new parent's frame
(the child-list mutation is covered by the CState model). -/
def reparentTo (f : Frame) (t : TTree) : TTree :=
  TTree.node t.pos t.rot (localPosFromWorld (some f) t.pos)
    (localRotFromWorld (some f) t.rot) t.children

/-- The `parent = undefined` path seen from the child: the world state
becomes the local state. -/
def unparent (t : TTree) : TTree :=
  TTree.node t.pos t.rot t.pos t.rot t.children

/-- `translate(v, World)`: `position` setter with `position.add(v)`, then
the `localPosition` setter with `_getLocalPositionFromWorldPosition`. -/
def translateWorld (pf : Option Frame) (t : TTree) (v : V3) : TTree :=
  let t1 := setPosW pf t (v3add t.pos v)
  setLocalPos pf t1 (localPosFromWorld pf t1.pos)

/-- `translate(v, Self)` on a parentless Transform: `position` setter with
`position.add(rotation.mulVector3(v))`, then `localPosition = position`. -/
def translateSelfRoot (t : TTree) (v : V3) : TTree :=
  let t1 := setPosW none t (v3add t.pos (quatMulVec t.rot v))
  setLocalPos none t1 t1.pos

/-- `translate(v, Self)` on a parented Transform: the `localPosition`
setter with `localPosition.add(localRotation.mulVector3(v))`; the follow-up
assignment targets the misspelled `this.location`, a dead store, so no
further setter runs. -/
def translateSelfChild (f : Frame) (t : TTree) (v : V3) : TTree :=
  setLocalPos (some f) t (v3add t.lpos (quatMulVec t.lrot v))

/-- `rotate(x,y,z, World)` with `e` the quaternion `Quaternion.Euler(x,y,z)`
(always a unit quaternion, see `eulerDeg_eq`): the `rotation` setter with
`Euler(x,y,z).mul(rotation)`, then the `localRotation` setter with
`_getLocalRotationFromWorldRotation`. -/
def rotateWorld (pf : Option Frame) (t : TTree) (e : Quat) : TTree :=
  let t1 := setRotW pf t (quatMul e t.rot)
  setLocalRot pf t1 (localRotFromWorld pf t1.rot)

/-- `rotate(x,y,z, Self)` on a parentless Transform. -/
def rotateSelfRoot (t : TTree) (e : Quat) : TTree :=
  let t1 := setRotW none t (quatMul t.rot e)
  setLocalRot none t1 t1.rot

/-- `rotate(x,y,z, Self)` on a parented Transform: the `localRotation`
setter with `localRotation.mul(e)`, then the full world `rotation` setter
with `_getWorldRotationFromLocalRotation` (which cascades to children). -/
def rotateSelfChild (f : Frame) (t : TTree) (e : Quat) : TTree :=
  let t1 := setLocalRot (some f) t (quatMul t.lrot e)
  setRotW (some f) t1 (worldRotFromLocal (some f) t1.lrot)

mutual

/-- The local/world consistency invariant of the specification, stated with
the library's epsilon equality: every node's world state is its parent's
world state composed with its local state (a root's world state is its
local state), recursively for all descendants. -/
def invTree : Option Frame → TTree → Prop
  | pf, TTree.node p r lp lr cs =>
      (v3equals p (worldPosFromLocal pf lp) ∧ equalsQ r (worldRotFromLocal pf lr)) ∧
      invForest ⟨p, r⟩ cs

/-- The invariant for all trees of a forest whose parent has frame `f`. -/
def invForest : Frame → List TTree → Prop
  | _, [] => True
  | f, c :: cs => invTree (some f) c ∧ invForest f cs

end

mutual

/-- All rotations (world and local) in the subtree are unit quaternions,
the invariant quaternion construction guarantees. -/
def unitT : TTree → Prop
  | TTree.node _ r _ lr cs => unitQ r ∧ unitQ lr ∧ unitL cs

/-- `unitT` for every tree of the forest. -/
def unitL : List TTree → Prop
  | [] => True
  | c :: cs => unitT c ∧ unitL cs

end

/-! ### Basic quaternion algebra -/

/-- The identity quaternion `Quaternion.identity = (0,0,0,1)`. -/
def idQ : Quat := ⟨0, 0, 0, 1⟩

/-- A Vector3 as a pure quaternion (scalar part 0). -/
def pureQ (v : V3) : Quat := ⟨v.x, v.y, v.z, 0⟩

/-- The vector part of a quaternion. -/
def vecQ (q : Quat) : V3 := ⟨q.x, q.y, q.z⟩

theorem normSqQ_mul (a b : Quat) : normSqQ (quatMul a b) = normSqQ a * normSqQ b := by
  cases a; cases b
  simp only [normSqQ, quatMul]
  ring

theorem normSqQ_conj (q : Quat) : normSqQ (quatConj q) = normSqQ q := by
  cases q
  simp only [normSqQ, quatConj]
  ring

theorem quatMul_assoc (a b c : Quat) :
    quatMul (quatMul a b) c = quatMul a (quatMul b c) := by
  cases a; cases b; cases c
  simp only [quatMul, Quat.mk.injEq]
  refine ⟨by ring, by ring, by ring, by ring⟩

theorem quatMul_conj_self (q : Quat) :
    quatMul q (quatConj q) = ⟨0, 0, 0, normSqQ q⟩ := by
  cases q
  simp only [quatMul, quatConj, normSqQ, Quat.mk.injEq]
  refine ⟨by ring, by ring, by ring, by ring⟩

theorem quatConj_mul_self (q : Quat) :
    quatMul (quatConj q) q = ⟨0, 0, 0, normSqQ q⟩ := by
  cases q
  simp only [quatMul, quatConj, normSqQ, Quat.mk.injEq]
  refine ⟨by ring, by ring, by ring, by ring⟩

theorem idQ_mul (q : Quat) : quatMul idQ q = q := by
  cases q
  simp only [quatMul, idQ, Quat.mk.injEq]
  refine ⟨by ring, by ring, by ring, by ring⟩

theorem mul_idQ (q : Quat) : quatMul q idQ = q := by
  cases q
  simp only [quatMul, idQ, Quat.mk.injEq]
  refine ⟨by ring, by ring, by ring, by ring⟩

/-- Multiplying on the left by `conj q` undoes multiplying by a unit `q`. -/
theorem quatConj_mul_cancel (q r : Quat) (h : normSqQ q = 1) :
    quatMul (quatConj q) (quatMul q r) = r := by
  obtain ⟨a, b, c, d⟩ := q
  obtain ⟨p, s, t, u⟩ := r
  simp only [normSqQ] at h
  simp only [quatMul, quatConj, Quat.mk.injEq]
  refine ⟨by linear_combination p * h, by linear_combination s * h,
    by linear_combination t * h, by linear_combination u * h⟩

/-- Multiplying on the right by a unit `q` undoes multiplying by `conj q`. -/
theorem mul_conj_cancel_right (q r : Quat) (h : normSqQ q = 1) :
    quatMul (quatMul r (quatConj q)) q = r := by
  obtain ⟨a, b, c, d⟩ := q
  obtain ⟨p, s, t, u⟩ := r
  simp only [normSqQ] at h
  simp only [quatMul, quatConj, Quat.mk.injEq]
  refine ⟨by linear_combination p * h, by linear_combination s * h,
    by linear_combination t * h, by linear_combination u * h⟩

/-- On a unit quaternion the expanded `mulVector3` formula agrees with the
quaternion sandwich `q * v * conj q`. -/
theorem quatMulVec_eq_sandwich (q : Quat) (v : V3) (h : normSqQ q = 1) :
    quatMulVec q v = vecQ (quatMul (quatMul q (pureQ v)) (quatConj q)) := by
  obtain ⟨a, b, c, d⟩ := q
  obtain ⟨vx, vy, vz⟩ := v
  simp only [normSqQ] at h
  simp only [quatMulVec, quatMul, quatConj, pureQ, vecQ, V3.mk.injEq]
  refine ⟨by linear_combination (-vx) * h, by linear_combination (-vy) * h,
    by linear_combination (-vz) * h⟩

/-- The sandwich of a pure quaternion has scalar part 0, for any q. -/
theorem sandwich_w (q : Quat) (v : V3) :
    (quatMul (quatMul q (pureQ v)) (quatConj q)).w = 0 := by
  cases q; cases v
  simp only [quatMul, quatConj, pureQ]
  ring

theorem pureQ_vecQ (q : Quat) (h : q.w = 0) : pureQ (vecQ q) = q := by
  cases q
  simp only [pureQ, vecQ]
  simp only at h
  rw [h]

/-- Rotating by q and then by its conjugate recovers the vector, for a unit
quaternion q. -/
theorem quatMulVec_conj_cancel (q : Quat) (v : V3) (h : normSqQ q = 1) :
    quatMulVec (quatConj q) (quatMulVec q v) = v := by
  have hc : normSqQ (quatConj q) = 1 := by rw [normSqQ_conj]; exact h
  have hcc : quatConj (quatConj q) = q := by
    cases q
    simp only [quatConj, neg_neg]
  rw [quatMulVec_eq_sandwich q v h, quatMulVec_eq_sandwich (quatConj q) _ hc,
    pureQ_vecQ _ (sandwich_w q v), hcc, quatMul_assoc q (pureQ v) (quatConj q),
    quatConj_mul_cancel q _ h, mul_conj_cancel_right q (pureQ v) h]
  cases v
  simp only [pureQ, vecQ]

/-- Rotating by the conjugate and then by q recovers the vector, for a unit
quaternion q. -/
theorem quatMulVec_cancel_conj (q : Quat) (v : V3) (h : normSqQ q = 1) :
    quatMulVec q (quatMulVec (quatConj q) v) = v := by
  have hc : normSqQ (quatConj q) = 1 := by rw [normSqQ_conj]; exact h
  have hcc : quatConj (quatConj q) = q := by
    cases q
    simp only [quatConj, neg_neg]
  calc quatMulVec q (quatMulVec (quatConj q) v)
      = quatMulVec (quatConj (quatConj q)) (quatMulVec (quatConj q) v) := by rw [hcc]
    _ = v := quatMulVec_conj_cancel (quatConj q) v hc

/-- Composing rotations: for unit quaternions the product acts as the
composition of the actions. -/
theorem quatMulVec_mul (a b : Quat) (v : V3) (ha : normSqQ a = 1)
    (hb : normSqQ b = 1) :
    quatMulVec (quatMul a b) v = quatMulVec a (quatMulVec b v) := by
  have hab : normSqQ (quatMul a b) = 1 := by rw [normSqQ_mul, ha, hb]; ring
  rw [quatMulVec_eq_sandwich b v hb, quatMulVec_eq_sandwich (quatMul a b) v hab,
    quatMulVec_eq_sandwich a _ ha, pureQ_vecQ _ (sandwich_w b v)]
  have hconj : quatConj (quatMul a b) = quatMul (quatConj b) (quatConj a) := by
    cases a; cases b
    simp only [quatConj, quatMul, Quat.mk.injEq]
    refine ⟨by ring, by ring, by ring, by ring⟩
  rw [hconj]
  simp only [quatMul_assoc]

/-- Identity rotation fixes every vector. -/
theorem quatMulVec_idQ (v : V3) : quatMulVec idQ v = v := by
  cases v
  simp only [quatMulVec, idQ, V3.mk.injEq]
  refine ⟨by ring, by ring, by ring⟩

/-- Equal reals compare equal under the epsilon comparison. -/
theorem doublesEqual_of_eq {a b : ℝ} (h : a = b) : doublesEqual a b := by
  simp only [doublesEqual, h, sub_self, abs_zero, eps]
  norm_num

/-- Equal vectors compare equal under the library's epsilon equality. -/
theorem v3equals_of_eq {a b : V3} (h : a = b) : v3equals a b :=
  ⟨doublesEqual_of_eq (by rw [h]), doublesEqual_of_eq (by rw [h]),
   doublesEqual_of_eq (by rw [h])⟩

/-- Equal quaternions compare equal under the library's epsilon equality. -/
theorem equalsQ_of_eq {a b : Quat} (h : a = b) : equalsQ a b :=
  ⟨doublesEqual_of_eq (by rw [h]), doublesEqual_of_eq (by rw [h]),
   doublesEqual_of_eq (by rw [h]), doublesEqual_of_eq (by rw [h])⟩

/-- The normalizing constructor is the identity embedding on unit input. -/
theorem quatCtor_unit (q : Quat) (h : normSqQ q = 1) :
    quatCtor q.x q.y q.z q.w = some q := by
  obtain ⟨a, b, c, d⟩ := q
  simp only [normSqQ] at h
  simp only [quatCtor, h, Real.sqrt_one, one_ne_zero, if_false, div_one]

/-- `Quaternion.prototype.mul` including the normalizing constructor the
source routes the Hamilton product through. -/
def quatMulCtor (a b : Quat) : Option Quat :=
  let r := quatMul a b
  quatCtor r.x r.y r.z r.w

/-- Vector3.forward = (0, 0, 1). -/
def v3forward : V3 := ⟨0, 0, 1⟩

/-! ### Claim C2: the gimbal-lock pole branches -/

/-- Being within tolerance of -0.5 rules out being within tolerance of
0.5. -/
theorem not_pole_pos_of_pole_neg {p : ℝ} (h : doublesEqual p (-0.5)) :
    ¬ doublesEqual p 0.5 := by
  intro habs
  simp only [doublesEqual, eps, abs_lt] at h habs
  obtain ⟨h1, h2⟩ := h
  obtain ⟨h3, h4⟩ := habs
  norm_num at h1 h2 h3 h4
  linarith

/-- C2: for any quaternion whose pole term `x*w - y*z` is within the 1e-13
tolerance of 0.5 (resp. -0.5), `eulerAngles` returns exactly (90, 0, 0)
(resp. (-90, 0, 0)). -/
theorem c2_gimbal_pole_exact (x y z w : ℝ) :
    (doublesEqual (x * w - y * z) 0.5 →
      getEulerAngles ⟨x, y, z, w⟩ = ⟨90, 0, 0⟩) ∧
    (doublesEqual (x * w - y * z) (-0.5) →
      getEulerAngles ⟨x, y, z, w⟩ = ⟨-90, 0, 0⟩) := by
  constructor
  · intro h
    simp only [getEulerAngles]
    rw [if_pos h]
  · intro h
    simp only [getEulerAngles]
    rw [if_neg (not_pole_pos_of_pole_neg h), if_pos h]

/-- Witness for C2: the pole quaternion (1,0,0,0.5) (before normalization)
hits the positive pole branch. -/
theorem c2_witness :
    doublesEqual ((1 : ℝ) * (1 / 2) - 0 * 0) 0.5 ∧
      getEulerAngles ⟨1, 0, 0, 1 / 2⟩ = ⟨90, 0, 0⟩ :=
  ⟨by norm_num [doublesEqual, eps, abs_of_pos],
   (c2_gimbal_pole_exact 1 0 0 (1 / 2)).1 (by norm_num [doublesEqual, eps, abs_of_pos])⟩

/-! ### Claim C5: Euler(0,90,0) rotates forward -/

theorem sqrt_two_mul_self : Real.sqrt 2 * Real.sqrt 2 = 2 :=
  Real.mul_self_sqrt (by norm_num)

theorem fromEulerRaw_0_90_0 :
    fromEulerRaw (0 * degToRad) (90 * degToRad) (0 * degToRad) =
      ⟨0, Real.sqrt 2 / 2, 0, Real.sqrt 2 / 2⟩ := by
  have h0 : (0 : ℝ) * degToRad / 2 = 0 := by ring
  have h1 : (90 : ℝ) * degToRad / 2 = Real.pi / 4 := by
    simp only [degToRad]
    ring
  simp only [fromEulerRaw, h0, h1, Real.cos_zero, Real.sin_zero,
    Real.cos_pi_div_four, Real.sin_pi_div_four, Quat.mk.injEq]
  refine ⟨by ring, by ring, by ring, by ring⟩

theorem eulerDeg_0_90_0 :
    eulerDeg 0 90 0 = some ⟨0, Real.sqrt 2 / 2, 0, Real.sqrt 2 / 2⟩ := by
  have h : normSqQ ⟨0, Real.sqrt 2 / 2, 0, Real.sqrt 2 / 2⟩ = 1 := by
    simp only [normSqQ]
    linear_combination (1 / 2) * sqrt_two_mul_self
  rw [eulerDeg, fromEulerRaw_0_90_0]
  exact quatCtor_unit _ h

theorem quatMulVec_euler_0_90_0 :
    quatMulVec ⟨0, Real.sqrt 2 / 2, 0, Real.sqrt 2 / 2⟩ v3forward = ⟨1, 0, 0⟩ := by
  simp only [quatMulVec, v3forward, V3.mk.injEq]
  refine ⟨by linear_combination (1 / 2) * sqrt_two_mul_self, by ring,
    by linear_combination (-(1 / 2)) * sqrt_two_mul_self⟩

/-- C5 counterexample: `Quaternion.Euler(0,90,0).mulVector3(Vector3.forward)`
is NOT within 1e-9 of (-1, 0, 0); its x component is exactly 1. -/
theorem c5_counterexample :
    ¬ ∃ q, eulerDeg 0 90 0 = some q ∧
      |(quatMulVec q v3forward).x - (-1)| < 1 / 10 ^ 9 ∧
      |(quatMulVec q v3forward).y - 0| < 1 / 10 ^ 9 ∧
      |(quatMulVec q v3forward).z - 0| < 1 / 10 ^ 9 := by
  rintro ⟨q, hq, hx, -, -⟩
  rw [eulerDeg_0_90_0] at hq
  simp only [Option.some.injEq] at hq
  subst hq
  rw [quatMulVec_euler_0_90_0] at hx
  norm_num at hx

/-- C5 (amended): `Quaternion.Euler(0,90,0).mulVector3(Vector3.forward)`
equals (1, 0, 0), each component within 1e-9 (in fact exactly). -/
theorem c5_euler_0_90_0_forward :
    ∃ q, eulerDeg 0 90 0 = some q ∧
      |(quatMulVec q v3forward).x - 1| < 1 / 10 ^ 9 ∧
      |(quatMulVec q v3forward).y - 0| < 1 / 10 ^ 9 ∧
      |(quatMulVec q v3forward).z - 0| < 1 / 10 ^ 9 := by
  refine ⟨⟨0, Real.sqrt 2 / 2, 0, Real.sqrt 2 / 2⟩, eulerDeg_0_90_0, ?_⟩
  rw [quatMulVec_euler_0_90_0]
  norm_num

/-! ### Claim C6: mulVector3 agrees with the rotation-matrix path -/

/-- C6: for every quaternion and vector, the expanded `mulVector3` formula
and `Matrix4x4.RotationMatrix(q).mulVector3(v)` produce the same vector
(exactly, hence within the comparison tolerance). -/
theorem c6_mulVector3_eq_rotationMatrix (q : Quat) (v : V3) :
    v3equals (quatMulVec q v) (matMulVec3 (rotationMatrix q) v) := by
  obtain ⟨a, b, c, d⟩ := q
  obtain ⟨vx, vy, vz⟩ := v
  refine ⟨doublesEqual_of_eq ?_, doublesEqual_of_eq ?_, doublesEqual_of_eq ?_⟩ <;>
    simp only [quatMulVec, matMulVec3, rotationMatrix] <;> ring

/-! ### Claim C7: quaternion multiplication composes rotations -/

/-- C7: for normalized quaternions A and B (every quaternion with numeric
fields that the constructor can produce) and any vector v,
`(A.mul(B)).mulVector3(v)` equals `A.mulVector3(B.mulVector3(v))`. -/
theorem c7_mul_composes (a b : Quat) (v : V3) (ha : unitQ a) (hb : unitQ b) :
    ∃ p, quatMulCtor a b = some p ∧
      v3equals (quatMulVec p v) (quatMulVec a (quatMulVec b v)) := by
  refine ⟨quatMul a b, ?_, ?_⟩
  · have h : normSqQ (quatMul a b) = 1 := by
      rw [normSqQ_mul, ha, hb, one_mul]
    simp only [quatMulCtor]
    exact quatCtor_unit _ h
  · exact v3equals_of_eq (quatMulVec_mul a b v ha hb)

/-- Witness for C7 at the identity quaternions and v = (1, 2, 3). -/
theorem c7_witness :
    unitQ idQ ∧
      ∃ p, quatMulCtor idQ idQ = some p ∧
        v3equals (quatMulVec p ⟨1, 2, 3⟩) (quatMulVec idQ (quatMulVec idQ ⟨1, 2, 3⟩)) :=
  ⟨by norm_num [unitQ, normSqQ, idQ],
   c7_mul_composes idQ idQ ⟨1, 2, 3⟩ (by norm_num [unitQ, normSqQ, idQ])
     (by norm_num [unitQ, normSqQ, idQ])⟩

/-! ### Claim C8: LocalToWorldMatrix with omitted arguments -/

/-- C8: with the rotation argument supplied and the scale omitted, the scale
defaults to one; with the rotation omitted, the identity default is assigned
to the misspelled `fromRotation`, so `TRS` receives `undefined` and
`RotationMatrix` throws instead of returning TRS(position, identity, one). -/
theorem c8_localToWorld_omitted_rotation_throws :
    (∀ (p : V3) (r : Quat), localToWorldMatrix p (some r) none = some (trs p r v3one)) ∧
    (∀ p : V3, localToWorldMatrix p none none = none) :=
  ⟨fun _ _ => rfl, fun _ => rfl⟩

/-! ### Claim C9: the zero-magnitude constructor input -/

/-- C9: constructing a quaternion from (0,0,0,0) does not return the
components as-is; `_normalizedCoordinates` returns its dynamic `this` (the
JS global object) and the constructed fields all become `undefined`,
modelled as `none`. -/
theorem c9_zero_magnitude_constructor_degenerate : quatCtor 0 0 0 0 = none := by
  have h : (0 : ℝ) * 0 + 0 * 0 + 0 * 0 + 0 * 0 = 0 := by norm_num
  simp only [quatCtor, h, Real.sqrt_zero, if_pos]

/-! ### Claim C10: angleAxis of the identity quaternion -/

/-- C10: reading `angleAxis` on the identity quaternion does not fail: the
0/0 divisions produce NaN, the Vector3 constructor's falsy check turns them
into 0, and the angle is 2*acos(1) = 0. -/
theorem c10_identity_angleAxis : getAngleAxis ⟨0, 0, 0, 1⟩ = some (⟨0, 0, 0⟩, 0) := by
  have h : (1 : ℝ) - 1 * 1 = 0 := by norm_num
  simp only [getAngleAxis, h, Real.sqrt_zero, jsDiv, if_pos, v3CtorArg,
    Real.arccos_one, if_true]
  norm_num

/-! ### Claim C4: parent/children list consistency -/

/-- The empty Transform graph: no parents, no children. -/
def cstate0 : CState := ⟨fun _ => none, fun _ => []⟩

/-- C4: after `c.parent = p1; c.parent = p2` the child still sits in p1's
children array (the parent setter never deregisters from the old parent),
so it appears in two children lists at once; and `p.addChild(c)` on a
fresh child pushes it twice.  Here c = 0, p1 = 1, p2 = 2. -/
theorem c4_reparent_bookkeeping :
    (jsSetParent (jsSetParent cstate0 0 1) 0 2).parent 0 = some 2 ∧
    (jsSetParent (jsSetParent cstate0 0 1) 0 2).children 1 = [0] ∧
    (jsSetParent (jsSetParent cstate0 0 1) 0 2).children 2 = [0] ∧
    (jsAddChild cstate0 1 0).children 1 = [0, 0] :=
  ⟨rfl, rfl, rfl, rfl⟩

/-! ### Claim C3: the Transform local/world invariant -/

/-- Multiplying on the left by a unit `q` undoes multiplying by `conj q`. -/
theorem mul_conj_mul_cancel (q r : Quat) (h : normSqQ q = 1) :
    quatMul q (quatMul (quatConj q) r) = r := by
  obtain ⟨a, b, c, d⟩ := q
  obtain ⟨p, s, t, u⟩ := r
  simp only [normSqQ] at h
  simp only [quatMul, quatConj, Quat.mk.injEq]
  refine ⟨by linear_combination p * h, by linear_combination s * h,
    by linear_combination t * h, by linear_combination u * h⟩

theorem v3add_sub_cancel (a b : V3) : v3add a (v3sub b a) = b := by
  cases a; cases b
  simp only [v3add, v3sub, V3.mk.injEq]
  refine ⟨by ring, by ring, by ring⟩

/-- The parent frame's rotation is a unit quaternion (trivial at a root). -/
def unitF : Option Frame → Prop
  | none => True
  | some f => unitQ f.rot

/-- Recomputing the world position from the recomputed local position is
exact in real arithmetic when the parent rotation is unit. -/
theorem worldPos_localPos_cancel (pf : Option Frame) (hf : unitF pf) (p : V3) :
    worldPosFromLocal pf (localPosFromWorld pf p) = p := by
  cases pf with
  | none => rfl
  | some f =>
      simp only [worldPosFromLocal, localPosFromWorld]
      rw [quatMulVec_cancel_conj f.rot _ hf, v3add_sub_cancel]

/-- Recomputing the world rotation from the recomputed local rotation is
exact in real arithmetic when the parent rotation is unit. -/
theorem worldRot_localRot_cancel (pf : Option Frame) (hf : unitF pf) (r : Quat) :
    worldRotFromLocal pf (localRotFromWorld pf r) = r := by
  cases pf with
  | none => rfl
  | some f =>
      simp only [worldRotFromLocal, localRotFromWorld]
      exact mul_conj_mul_cancel f.rot r hf

theorem adjC_nil (n : Nat) (f : Frame) : adjC n f [] = [] := by
  cases n <;> rfl

/-- Unfolding `_adjustChildren` on the head of a nonempty forest. -/
theorem adjC_cons (n : Nat) (f : Frame) (p : V3) (r : Quat) (lp : V3) (lr : Quat)
    (gs : List TTree) (cs : List TTree) :
    adjC (Nat.succ n) f (TTree.node p r lp lr gs :: cs) =
      TTree.node (worldPosFromLocal (some f) lp)
        (worldRotFromLocal (some f) lr)
        (localPosFromWorld (some f) (worldPosFromLocal (some f) lp))
        (localRotFromWorld (some f) (worldRotFromLocal (some f) lr))
        (adjC n ⟨worldPosFromLocal (some f) lp, worldRotFromLocal (some f) lr⟩
          (adjC n ⟨p, worldRotFromLocal (some f) lr⟩ gs)) ::
      adjC (Nat.succ n) f cs := by
  simp only [adjC, List.map_cons, TTree.pos, TTree.rot, TTree.lpos, TTree.lrot,
    TTree.children]

/-- `_adjustChildren` preserves the shape of the forest: the depth does not
change, whatever the fuel. -/
theorem adjC_depth (n : Nat) : ∀ (f : Frame) (cs : List TTree),
    depthL (adjC n f cs) = depthL cs := by
  induction n with
  | zero => intro f cs; rfl
  | succ n ih =>
      intro f cs
      induction cs with
      | nil => rfl
      | cons c cs ihcs =>
          obtain ⟨p, r, lp, lr, gs⟩ := c
          rw [adjC_cons]
          simp only [depthL, depthT]
          rw [ih, ih, ihcs]

/-- A forest of depth 0 is empty. -/
theorem depthL_eq_zero {cs : List TTree} (h : depthL cs = 0) : cs = [] := by
  cases cs with
  | nil => rfl
  | cons c cs =>
      obtain ⟨p, r, lp, lr, gs⟩ := c
      simp only [depthL, depthT] at h
      omega

/-- `_adjustChildren` keeps every rotation in the forest unit when the
parent frame's rotation is unit. -/
theorem adjC_unit (n : Nat) : ∀ (f : Frame) (cs : List TTree),
    unitQ f.rot → unitL cs → unitL (adjC n f cs) := by
  induction n with
  | zero => intro f cs _ h; exact h
  | succ n ih =>
      intro f cs hf hcs
      induction cs with
      | nil => exact hcs
      | cons c cs ihcs =>
          obtain ⟨hc, hcs'⟩ := hcs
          obtain ⟨p, r, lp, lr, gs⟩ := c
          obtain ⟨hr, hlr, hgs⟩ := hc
          rw [adjC_cons]
          have hr1 : unitQ (worldRotFromLocal (some f) lr) := by
            simp only [worldRotFromLocal, unitQ]
            rw [normSqQ_mul, hf, hlr, one_mul]
          refine ⟨⟨hr1, ?_, ?_⟩, ihcs hcs'⟩
          · simp only [localRotFromWorld, unitQ]
            rw [normSqQ_mul, normSqQ_conj, hf, hr1, one_mul]
          · exact ih _ _ hr1 (ih _ _ hr1 hgs)

/-- After `_adjustChildren` with a unit parent frame and enough fuel, the
whole forest satisfies the local/world invariant, with no assumption on the
forest's previous world state: the cascade rebuilds it from the locals. -/
theorem adjC_inv (n : Nat) : ∀ (f : Frame) (cs : List TTree),
    unitQ f.rot → unitL cs → depthL cs ≤ n → invForest f (adjC n f cs) := by
  induction n with
  | zero =>
      intro f cs _ _ hd
      rw [depthL_eq_zero (Nat.le_zero.mp hd)]
      exact trivial
  | succ n ih =>
      intro f cs hf hcs hd
      induction cs with
      | nil => exact trivial
      | cons c cs ihcs =>
          obtain ⟨hc, hcs'⟩ := hcs
          obtain ⟨p, r, lp, lr, gs⟩ := c
          obtain ⟨hr, hlr, hgs⟩ := hc
          simp only [depthL, depthT] at hd
          rw [adjC_cons]
          have hr1 : unitQ (worldRotFromLocal (some f) lr) := by
            simp only [worldRotFromLocal, unitQ]
            rw [normSqQ_mul, hf, hlr, one_mul]
          refine ⟨?_, ihcs hcs' (by omega)⟩
          simp only [invTree]
          refine ⟨⟨?_, ?_⟩, ?_⟩
          · exact v3equals_of_eq
              (worldPos_localPos_cancel (some f) hf (worldPosFromLocal (some f) lp)).symm
          · exact equalsQ_of_eq
              (worldRot_localRot_cancel (some f) hf (worldRotFromLocal (some f) lr)).symm
          · have hunit1 : unitL (adjC n ⟨p, worldRotFromLocal (some f) lr⟩ gs) :=
              adjC_unit n _ gs hr1 hgs
            have hdepth1 : depthL (adjC n ⟨p, worldRotFromLocal (some f) lr⟩ gs) ≤ n := by
              rw [adjC_depth]
              omega
            exact ih _ _ hr1 hunit1 hdepth1

/-- The one-node part of the invariant: this node's world state is its
parent's world state composed with its local state. -/
def invNode (pf : Option Frame) (t : TTree) : Prop :=
  v3equals t.pos (worldPosFromLocal pf t.lpos) ∧
  equalsQ t.rot (worldRotFromLocal pf t.lrot)

theorem invNode_of_invTree {pf : Option Frame} {t : TTree} (h : invTree pf t) :
    invNode pf t := by
  obtain ⟨p, r, lp, lr, cs⟩ := t
  simp only [invTree] at h
  exact ⟨h.1.1, h.1.2⟩

theorem invForest_of_invTree {pf : Option Frame} {t : TTree} (h : invTree pf t) :
    invForest ⟨t.pos, t.rot⟩ t.children := by
  obtain ⟨p, r, lp, lr, cs⟩ := t
  simp only [invTree] at h
  exact h.2

/-- The world `position` setter re-establishes the invariant on the whole
subtree: the node by the exact local recomputation, the descendants by the
cascade. -/
theorem invTree_setPosW (pf : Option Frame) (t : TTree) (v : V3) (hf : unitF pf)
    (hu : unitT t) (hn : invNode pf t) : invTree pf (setPosW pf t v) := by
  obtain ⟨p, r, lp, lr, cs⟩ := t
  obtain ⟨hr, hlr, hcs⟩ := hu
  simp only [invNode, TTree.pos, TTree.rot, TTree.lpos, TTree.lrot] at hn
  simp only [setPosW, TTree.pos, TTree.rot, TTree.lpos, TTree.lrot, TTree.children,
    invTree]
  exact ⟨⟨v3equals_of_eq (worldPos_localPos_cancel pf hf v).symm, hn.2⟩,
    adjC_inv _ ⟨v, r⟩ cs hr hcs le_rfl⟩

/-- The world `rotation` setter re-establishes the invariant on the whole
subtree. -/
theorem invTree_setRotW (pf : Option Frame) (t : TTree) (v : Quat) (hf : unitF pf)
    (hv : unitQ v) (hu : unitT t) (hn : invNode pf t) : invTree pf (setRotW pf t v) := by
  obtain ⟨p, r, lp, lr, cs⟩ := t
  obtain ⟨hr, hlr, hcs⟩ := hu
  simp only [invNode, TTree.pos, TTree.rot, TTree.lpos, TTree.lrot] at hn
  simp only [setRotW, TTree.pos, TTree.rot, TTree.lpos, TTree.lrot, TTree.children,
    invTree]
  exact ⟨⟨hn.1, equalsQ_of_eq (worldRot_localRot_cancel pf hf v).symm⟩,
    adjC_inv _ ⟨p, v⟩ cs hv hcs le_rfl⟩

/-- The `localPosition` setter re-establishes the invariant on the node
itself and leaves the children untouched. -/
theorem invNode_setLocalPos (pf : Option Frame) (t : TTree) (v : V3)
    (hn : invNode pf t) :
    invNode pf (setLocalPos pf t v) ∧ (setLocalPos pf t v).children = t.children := by
  obtain ⟨p, r, lp, lr, cs⟩ := t
  simp only [invNode, TTree.pos, TTree.rot, TTree.lpos, TTree.lrot] at hn
  simp only [invNode, setLocalPos, TTree.pos, TTree.rot, TTree.lpos, TTree.lrot,
    TTree.children]
  exact ⟨⟨v3equals_of_eq rfl, hn.2⟩, trivial⟩

/-- The `localRotation` setter re-establishes the invariant on the node
itself and leaves the children untouched. -/
theorem invNode_setLocalRot (pf : Option Frame) (t : TTree) (v : Quat)
    (hn : invNode pf t) :
    invNode pf (setLocalRot pf t v) ∧ (setLocalRot pf t v).children = t.children := by
  obtain ⟨p, r, lp, lr, cs⟩ := t
  simp only [invNode, TTree.pos, TTree.rot, TTree.lpos, TTree.lrot] at hn
  simp only [invNode, setLocalRot, TTree.pos, TTree.rot, TTree.lpos, TTree.lrot,
    TTree.children]
  exact ⟨⟨hn.1, equalsQ_of_eq rfl⟩, trivial⟩

/-- A `localPosition` write whose recomputed world position equals the old
one preserves the full subtree invariant (used for the second step of
`translate`). -/
theorem invTree_setLocalPos_preserving (pf : Option Frame) (t : TTree) (v : V3)
    (hvw : worldPosFromLocal pf v = t.pos) (hinv : invTree pf t) :
    invTree pf (setLocalPos pf t v) := by
  obtain ⟨p, r, lp, lr, cs⟩ := t
  simp only [TTree.pos] at hvw
  simp only [invTree] at hinv
  simp only [setLocalPos, TTree.pos, TTree.rot, TTree.lpos, TTree.lrot,
    TTree.children, invTree, hvw]
  exact ⟨⟨v3equals_of_eq rfl, hinv.1.2⟩, hinv.2⟩

/-- A `localRotation` write whose recomputed world rotation equals the old
one preserves the full subtree invariant (used for the second step of
`rotate`). -/
theorem invTree_setLocalRot_preserving (pf : Option Frame) (t : TTree) (v : Quat)
    (hvw : worldRotFromLocal pf v = t.rot) (hinv : invTree pf t) :
    invTree pf (setLocalRot pf t v) := by
  obtain ⟨p, r, lp, lr, cs⟩ := t
  simp only [TTree.rot] at hvw
  simp only [invTree] at hinv
  simp only [setLocalRot, TTree.pos, TTree.rot, TTree.lpos, TTree.lrot,
    TTree.children, invTree, hvw]
  exact ⟨⟨hinv.1.1, equalsQ_of_eq rfl⟩, hinv.2⟩

/-- Re-anchoring under a new parent preserves the world pose, recomputes the
locals exactly, and keeps all descendants consistent. -/
theorem invTree_reparentTo (f : Frame) (t : TTree) (hf : unitQ f.rot)
    (hch : invForest ⟨t.pos, t.rot⟩ t.children) : invTree (some f) (reparentTo f t) := by
  obtain ⟨p, r, lp, lr, cs⟩ := t
  simp only [TTree.pos, TTree.rot, TTree.children] at hch
  simp only [reparentTo, TTree.pos, TTree.rot, TTree.children, invTree]
  exact ⟨⟨v3equals_of_eq (worldPos_localPos_cancel (some f) hf p).symm,
    equalsQ_of_eq (worldRot_localRot_cancel (some f) hf r).symm⟩, hch⟩

/-- Detaching from a parent makes the world pose the local pose and keeps
all descendants consistent. -/
theorem invTree_unparent (t : TTree)
    (hch : invForest ⟨t.pos, t.rot⟩ t.children) : invTree none (unparent t) := by
  obtain ⟨p, r, lp, lr, cs⟩ := t
  simp only [TTree.pos, TTree.rot, TTree.children] at hch
  simp only [unparent, TTree.pos, TTree.rot, TTree.children, invTree]
  exact ⟨⟨v3equals_of_eq rfl, equalsQ_of_eq rfl⟩, hch⟩

theorem unitT_rot {t : TTree} (hu : unitT t) : unitQ t.rot := by
  obtain ⟨p, r, lp, lr, cs⟩ := t
  exact hu.1

theorem unitT_lrot {t : TTree} (hu : unitT t) : unitQ t.lrot := by
  obtain ⟨p, r, lp, lr, cs⟩ := t
  exact hu.2.1

theorem unitT_children {t : TTree} (hu : unitT t) : unitL t.children := by
  obtain ⟨p, r, lp, lr, cs⟩ := t
  exact hu.2.2

theorem unitQ_mul {a b : Quat} (ha : unitQ a) (hb : unitQ b) : unitQ (quatMul a b) := by
  simp only [unitQ] at ha hb ⊢
  rw [normSqQ_mul, ha, hb, one_mul]

theorem unitQ_conj {q : Quat} (h : unitQ q) : unitQ (quatConj q) := by
  simp only [unitQ] at h ⊢
  rw [normSqQ_conj, h]

theorem unitQ_worldRotFromLocal {pf : Option Frame} {v : Quat} (hf : unitF pf)
    (hv : unitQ v) : unitQ (worldRotFromLocal pf v) := by
  cases pf with
  | none => exact hv
  | some f => exact unitQ_mul hf hv

theorem unitQ_localRotFromWorld {pf : Option Frame} {v : Quat} (hf : unitF pf)
    (hv : unitQ v) : unitQ (localRotFromWorld pf v) := by
  cases pf with
  | none => exact hv
  | some f => exact unitQ_mul (unitQ_conj hf) hv

theorem unitT_setPosW (pf : Option Frame) (t : TTree) (v : V3) (hu : unitT t) :
    unitT (setPosW pf t v) := by
  obtain ⟨p, r, lp, lr, cs⟩ := t
  obtain ⟨hr, hlr, hcs⟩ := hu
  exact ⟨hr, hlr, adjC_unit _ _ _ hr hcs⟩

theorem unitT_setRotW (pf : Option Frame) (t : TTree) (v : Quat) (hf : unitF pf)
    (hv : unitQ v) (hu : unitT t) : unitT (setRotW pf t v) := by
  obtain ⟨p, r, lp, lr, cs⟩ := t
  obtain ⟨hr, hlr, hcs⟩ := hu
  exact ⟨hv, unitQ_localRotFromWorld hf hv, adjC_unit _ _ _ hv hcs⟩

theorem unitT_setLocalRot (pf : Option Frame) (t : TTree) (v : Quat) (hf : unitF pf)
    (hv : unitQ v) (hu : unitT t) : unitT (setLocalRot pf t v) := by
  obtain ⟨p, r, lp, lr, cs⟩ := t
  obtain ⟨hr, hlr, hcs⟩ := hu
  exact ⟨unitQ_worldRotFromLocal hf hv, hv, hcs⟩

/-- `translate(v, World)` keeps the whole subtree consistent. -/
theorem invTree_translateWorld (pf : Option Frame) (t : TTree) (v : V3)
    (hf : unitF pf) (hu : unitT t) (hinv : invTree pf t) :
    invTree pf (translateWorld pf t v) := by
  have h1 : invTree pf (setPosW pf t (v3add t.pos v)) :=
    invTree_setPosW pf t _ hf hu (invNode_of_invTree hinv)
  simp only [translateWorld]
  exact invTree_setLocalPos_preserving pf _ _ (worldPos_localPos_cancel pf hf _) h1

/-- `translate(v, Self)` on a parentless Transform keeps the whole subtree
consistent. -/
theorem invTree_translateSelfRoot (t : TTree) (v : V3) (hu : unitT t)
    (hinv : invTree none t) : invTree none (translateSelfRoot t v) := by
  have h1 : invTree none (setPosW none t (v3add t.pos (quatMulVec t.rot v))) :=
    invTree_setPosW none t _ trivial hu (invNode_of_invTree hinv)
  simp only [translateSelfRoot]
  exact invTree_setLocalPos_preserving none _ _ rfl h1

/-- `translate(v, Self)` on a parented Transform only goes through the
`localPosition` setter (the world write-back hits the dead `this.location`
property), so only the node invariant is re-established and the children
are untouched. -/
theorem invNode_translateSelfChild (f : Frame) (t : TTree) (v : V3)
    (hn : invNode (some f) t) :
    invNode (some f) (translateSelfChild f t v) ∧
      (translateSelfChild f t v).children = t.children := by
  simp only [translateSelfChild]
  exact invNode_setLocalPos _ _ _ hn

/-- `rotate(_, World)` keeps the whole subtree consistent. -/
theorem invTree_rotateWorld (pf : Option Frame) (t : TTree) (e : Quat)
    (hf : unitF pf) (he : unitQ e) (hu : unitT t) (hinv : invTree pf t) :
    invTree pf (rotateWorld pf t e) := by
  have h1 : invTree pf (setRotW pf t (quatMul e t.rot)) :=
    invTree_setRotW pf t _ hf (unitQ_mul he (unitT_rot hu)) hu
      (invNode_of_invTree hinv)
  simp only [rotateWorld]
  exact invTree_setLocalRot_preserving pf _ _ (worldRot_localRot_cancel pf hf _) h1

/-- `rotate(_, Self)` on a parentless Transform keeps the whole subtree
consistent. -/
theorem invTree_rotateSelfRoot (t : TTree) (e : Quat) (he : unitQ e)
    (hu : unitT t) (hinv : invTree none t) : invTree none (rotateSelfRoot t e) := by
  have h1 : invTree none (setRotW none t (quatMul t.rot e)) :=
    invTree_setRotW none t _ trivial (unitQ_mul (unitT_rot hu) he) hu
      (invNode_of_invTree hinv)
  simp only [rotateSelfRoot]
  exact invTree_setLocalRot_preserving none _ _ rfl h1

/-- `rotate(_, Self)` on a parented Transform ends in the full world
`rotation` setter, so the whole subtree is consistent again. -/
theorem invTree_rotateSelfChild (f : Frame) (t : TTree) (e : Quat)
    (hf : unitQ f.rot) (he : unitQ e) (hu : unitT t)
    (hinv : invTree (some f) t) : invTree (some f) (rotateSelfChild f t e) := by
  have hlr1 : unitQ (quatMul t.lrot e) := unitQ_mul (unitT_lrot hu) he
  have hu1 : unitT (setLocalRot (some f) t (quatMul t.lrot e)) :=
    unitT_setLocalRot (some f) t _ hf hlr1 hu
  have hn1 : invNode (some f) (setLocalRot (some f) t (quatMul t.lrot e)) :=
    (invNode_setLocalRot (some f) t _ (invNode_of_invTree hinv)).1
  simp only [rotateSelfChild]
  exact invTree_setRotW (some f) _ _ hf
    (unitQ_worldRotFromLocal hf (by
      obtain ⟨p, r, lp, lr, cs⟩ := t
      exact hlr1)) hu1 hn1

/-- C3 (amended): starting from a consistent subtree with unit rotations,
the world setters (`position`, `rotation`), `translate` in World space,
`rotate` in World or Self space, and Self-space `translate` at a root all
re-establish the local/world invariant for the node and all descendants;
the `localPosition`/`localRotation` setters and parented Self-space
`translate` re-establish it for the node itself and leave the children
untouched (descendants may go stale); the `parent` setter (both directions,
also as run by addChild/removeChild) keeps the node and descendants
consistent. -/
theorem c3_mutators_invariant (pf : Option Frame) (t : TTree)
    (hf : unitF pf) (hu : unitT t) (hinv : invTree pf t) :
    (∀ v : V3, invTree pf (setPosW pf t v)) ∧
    (∀ r : Quat, unitQ r → invTree pf (setRotW pf t r)) ∧
    (∀ v : V3, invNode pf (setLocalPos pf t v) ∧
      (setLocalPos pf t v).children = t.children) ∧
    (∀ r : Quat, invNode pf (setLocalRot pf t r) ∧
      (setLocalRot pf t r).children = t.children) ∧
    (∀ f : Frame, unitQ f.rot → invTree (some f) (reparentTo f t)) ∧
    invTree none (unparent t) ∧
    (∀ v : V3, invTree pf (translateWorld pf t v)) ∧
    (pf = none → ∀ v : V3, invTree none (translateSelfRoot t v)) ∧
    (∀ f : Frame, pf = some f → ∀ v : V3,
      invNode (some f) (translateSelfChild f t v) ∧
        (translateSelfChild f t v).children = t.children) ∧
    (∀ e : Quat, unitQ e → invTree pf (rotateWorld pf t e)) ∧
    (pf = none → ∀ e : Quat, unitQ e → invTree none (rotateSelfRoot t e)) ∧
    (∀ f : Frame, pf = some f → ∀ e : Quat, unitQ e →
      invTree (some f) (rotateSelfChild f t e)) := by
  refine ⟨fun v => invTree_setPosW pf t v hf hu (invNode_of_invTree hinv),
    fun r hr => invTree_setRotW pf t r hf hr hu (invNode_of_invTree hinv),
    fun v => invNode_setLocalPos pf t v (invNode_of_invTree hinv),
    fun r => invNode_setLocalRot pf t r (invNode_of_invTree hinv),
    fun f hfr => invTree_reparentTo f t hfr (invForest_of_invTree hinv),
    invTree_unparent t (invForest_of_invTree hinv),
    fun v => invTree_translateWorld pf t v hf hu hinv,
    ?_, ?_, fun e he => invTree_rotateWorld pf t e hf he hu hinv, ?_, ?_⟩
  · rintro rfl v
    exact invTree_translateSelfRoot t v hu hinv
  · rintro f rfl v
    exact invNode_translateSelfChild f t v (invNode_of_invTree hinv)
  · rintro rfl e he
    exact invTree_rotateSelfRoot t e he hu hinv
  · rintro f rfl e he
    exact invTree_rotateSelfChild f t e hf he hu hinv

/-- A consistent two-node example: a root at the origin with identity
rotation and a child at local (and world) position (1,0,0). -/
def tPair : TTree :=
  TTree.node ⟨0, 0, 0⟩ idQ ⟨0, 0, 0⟩ idQ
    [TTree.node ⟨1, 0, 0⟩ idQ ⟨1, 0, 0⟩ idQ []]

/-- C3 counterexample: on a reachable consistent hierarchy, the
`localPosition` setter does NOT leave the invariant holding for the
mutated node's descendants: after `root.localPosition = (5,0,0)` the
child's stored world position (1,0,0) no longer equals
parent.position + parent.rotation * child.localPosition = (6,0,0). -/
theorem c3_counterexample :
    unitT tPair ∧ invTree none tPair ∧
      ¬ invTree none (setLocalPos none tPair ⟨5, 0, 0⟩) := by
  refine ⟨?_, ?_, ?_⟩
  · refine ⟨?_, ?_, ⟨?_, ?_, trivial⟩, trivial⟩ <;>
      norm_num [unitQ, normSqQ, idQ]
  · refine ⟨⟨v3equals_of_eq rfl, equalsQ_of_eq rfl⟩,
      ⟨⟨v3equals_of_eq ?_, equalsQ_of_eq ?_⟩, trivial⟩, trivial⟩
    · show (⟨1, 0, 0⟩ : V3) = worldPosFromLocal (some ⟨⟨0, 0, 0⟩, idQ⟩) ⟨1, 0, 0⟩
      simp only [worldPosFromLocal, quatMulVec_idQ, v3add, V3.mk.injEq]
      norm_num
    · show idQ = worldRotFromLocal (some ⟨⟨0, 0, 0⟩, idQ⟩) idQ
      simp only [worldRotFromLocal]
      exact (idQ_mul idQ).symm
  · intro h
    have hchild := h.2.1.1.1
    simp only [tPair, TTree.rot, TTree.pos, TTree.lpos, TTree.lrot, TTree.children,
      worldPosFromLocal, quatMulVec_idQ, v3add, v3equals,
      doublesEqual, eps] at hchild
    obtain ⟨h1, -, -⟩ := hchild
    norm_num at h1

/-- Witness tree for C3: a single consistent root node. -/
def tSolo : TTree := TTree.node ⟨0, 0, 0⟩ idQ ⟨0, 0, 0⟩ idQ []

/-- Witness for C3 at the single-node tree with no parent: the hypotheses
hold and the amended statement follows by applying the theorem. -/
theorem c3_witness :
    (unitF (none : Option Frame) ∧ unitT tSolo ∧ invTree none tSolo) ∧
      (∀ v : V3, invTree none (setPosW none tSolo v)) ∧
      (∀ r : Quat, unitQ r → invTree none (setRotW none tSolo r)) ∧
      (∀ v : V3, invNode none (setLocalPos none tSolo v) ∧
        (setLocalPos none tSolo v).children = tSolo.children) ∧
      (∀ r : Quat, invNode none (setLocalRot none tSolo r) ∧
        (setLocalRot none tSolo r).children = tSolo.children) ∧
      (∀ f : Frame, unitQ f.rot → invTree (some f) (reparentTo f tSolo)) ∧
      invTree none (unparent tSolo) ∧
      (∀ v : V3, invTree none (translateWorld none tSolo v)) ∧
      ((none : Option Frame) = none → ∀ v : V3,
        invTree none (translateSelfRoot tSolo v)) ∧
      (∀ f : Frame, (none : Option Frame) = some f → ∀ v : V3,
        invNode (some f) (translateSelfChild f tSolo v) ∧
          (translateSelfChild f tSolo v).children = tSolo.children) ∧
      (∀ e : Quat, unitQ e → invTree none (rotateWorld none tSolo e)) ∧
      ((none : Option Frame) = none → ∀ e : Quat, unitQ e →
        invTree none (rotateSelfRoot tSolo e)) ∧
      (∀ f : Frame, (none : Option Frame) = some f → ∀ e : Quat, unitQ e →
        invTree (some f) (rotateSelfChild f tSolo e)) :=
  ⟨⟨trivial, by norm_num [tSolo, unitT, unitL, unitQ, normSqQ, idQ],
    ⟨⟨v3equals_of_eq rfl, equalsQ_of_eq rfl⟩, trivial⟩⟩,
   c3_mutators_invariant none tSolo trivial
     (by norm_num [tSolo, unitT, unitL, unitQ, normSqQ, idQ])
     ⟨⟨v3equals_of_eq rfl, equalsQ_of_eq rfl⟩, trivial⟩⟩

/-! ### Claim C1: Euler-angle round trip

The strategy: `_fromEuler` is the Hamilton product of three single-axis
rotations; their actions on vectors are the elementary rotation matrices in
the full angles; the angle extraction of `_getEulerAngles` recovers exactly
the sines and cosines of those angles (scaled by `cos(asin(...))`), so the
rebuilt quaternion has the same action as the original; and two unit
quaternions with the same action are equal up to sign. -/

/-- The single-axis rotation quaternion about x used by `_fromEuler`. -/
def qxQ (A : ℝ) : Quat := ⟨Real.sin (A / 2), 0, 0, Real.cos (A / 2)⟩

/-- The single-axis rotation quaternion about y used by `_fromEuler`. -/
def qyQ (B : ℝ) : Quat := ⟨0, Real.sin (B / 2), 0, Real.cos (B / 2)⟩

/-- The single-axis rotation quaternion about z used by `_fromEuler`. -/
def qzQ (C : ℝ) : Quat := ⟨0, 0, Real.sin (C / 2), Real.cos (C / 2)⟩

theorem unitQ_qxQ (A : ℝ) : unitQ (qxQ A) := by
  simp only [unitQ, qxQ, normSqQ]
  linear_combination Real.sin_sq_add_cos_sq (A / 2)

theorem unitQ_qyQ (B : ℝ) : unitQ (qyQ B) := by
  simp only [unitQ, qyQ, normSqQ]
  linear_combination Real.sin_sq_add_cos_sq (B / 2)

theorem unitQ_qzQ (C : ℝ) : unitQ (qzQ C) := by
  simp only [unitQ, qzQ, normSqQ]
  linear_combination Real.sin_sq_add_cos_sq (C / 2)

/-- `_fromEuler` is the product of the y, x, z single-axis rotations (in
that multiplication order). -/
theorem fromEulerRaw_mul (A B C : ℝ) :
    fromEulerRaw A B C = quatMul (qyQ B) (quatMul (qxQ A) (qzQ C)) := by
  simp only [fromEulerRaw, qxQ, qyQ, qzQ, quatMul, Quat.mk.injEq]
  refine ⟨by ring, by ring, by ring, by ring⟩

/-- Quaternions built from Euler angles are unit quaternions. -/
theorem fromEulerRaw_unit (A B C : ℝ) : unitQ (fromEulerRaw A B C) := by
  rw [fromEulerRaw_mul]
  exact unitQ_mul (unitQ_qyQ B) (unitQ_mul (unitQ_qxQ A) (unitQ_qzQ C))

theorem sin_full (A : ℝ) : Real.sin A = 2 * Real.sin (A / 2) * Real.cos (A / 2) := by
  have h := Real.sin_two_mul (A / 2)
  rw [show 2 * (A / 2) = A by ring] at h
  exact h

theorem cos_full (A : ℝ) : Real.cos A = 2 * Real.cos (A / 2) ^ 2 - 1 := by
  have h := Real.cos_two_mul (A / 2)
  rw [show 2 * (A / 2) = A by ring] at h
  exact h

/-- The action of the x-axis quaternion is the elementary x rotation. -/
theorem act_qxQ (A : ℝ) (v : V3) :
    quatMulVec (qxQ A) v =
      ⟨v.x, Real.cos A * v.y - Real.sin A * v.z,
       Real.sin A * v.y + Real.cos A * v.z⟩ := by
  obtain ⟨vx, vy, vz⟩ := v
  have hp := Real.sin_sq_add_cos_sq (A / 2)
  rw [sin_full A, cos_full A]
  simp only [quatMulVec, qxQ, V3.mk.injEq]
  refine ⟨by ring, by linear_combination (-(2 * vy)) * hp,
    by linear_combination (-(2 * vz)) * hp⟩

/-- The action of the y-axis quaternion is the elementary y rotation. -/
theorem act_qyQ (B : ℝ) (v : V3) :
    quatMulVec (qyQ B) v =
      ⟨Real.cos B * v.x + Real.sin B * v.z, v.y,
       -Real.sin B * v.x + Real.cos B * v.z⟩ := by
  obtain ⟨vx, vy, vz⟩ := v
  have hp := Real.sin_sq_add_cos_sq (B / 2)
  rw [sin_full B, cos_full B]
  simp only [quatMulVec, qyQ, V3.mk.injEq]
  refine ⟨by linear_combination (-(2 * vx)) * hp, by ring,
    by linear_combination (-(2 * vz)) * hp⟩

/-- The action of the z-axis quaternion is the elementary z rotation. -/
theorem act_qzQ (C : ℝ) (v : V3) :
    quatMulVec (qzQ C) v =
      ⟨Real.cos C * v.x - Real.sin C * v.y,
       Real.sin C * v.x + Real.cos C * v.y, v.z⟩ := by
  obtain ⟨vx, vy, vz⟩ := v
  have hp := Real.sin_sq_add_cos_sq (C / 2)
  rw [sin_full C, cos_full C]
  simp only [quatMulVec, qzQ, V3.mk.injEq]
  refine ⟨by linear_combination (-(2 * vx)) * hp,
    by linear_combination (-(2 * vy)) * hp, by ring⟩

/-- Shifting an angle by a whole number of turns leaves the action of the
single-axis quaternion unchanged (the quaternion itself may flip sign). -/
theorem act_qxQ_shift (A : ℝ) (k : ℤ) (v : V3) :
    quatMulVec (qxQ (A + k * (2 * Real.pi))) v = quatMulVec (qxQ A) v := by
  rw [act_qxQ, act_qxQ, Real.sin_add_int_mul_two_pi, Real.cos_add_int_mul_two_pi]

theorem act_qyQ_shift (B : ℝ) (k : ℤ) (v : V3) :
    quatMulVec (qyQ (B + k * (2 * Real.pi))) v = quatMulVec (qyQ B) v := by
  rw [act_qyQ, act_qyQ, Real.sin_add_int_mul_two_pi, Real.cos_add_int_mul_two_pi]

theorem act_qzQ_shift (C : ℝ) (k : ℤ) (v : V3) :
    quatMulVec (qzQ (C + k * (2 * Real.pi))) v = quatMulVec (qzQ C) v := by
  rw [act_qzQ, act_qzQ, Real.sin_add_int_mul_two_pi, Real.cos_add_int_mul_two_pi]

/-- The algebraic core of the round trip: if `sa` is the sine of the
extracted x angle, `sb, cb, sc, cc` are the sines/cosines of the extracted
y and z angles scaled through `rho = cos(asin(...))`, then the composition
of the three elementary rotations acts as the original quaternion does. -/
theorem euler_entries_comp (x y z w rho sa sb cb sc cc wx wy wz : ℝ)
    (hu : x * x + y * y + z * z + w * w = 1)
    (hsa : sa = 2 * x * w - 2 * y * z)
    (hsb : sb * rho = 2 * x * z + 2 * y * w)
    (hcb : cb * rho = 1 - 2 * y ^ 2 - 2 * x ^ 2)
    (hsc : sc * rho = 2 * x * y + 2 * z * w)
    (hcc : cc * rho = -(1 - 2 * y ^ 2 - 2 * w ^ 2))
    (hrho : rho * rho = 1 - (2 * x * w - 2 * y * z) ^ 2)
    (hrne : rho ≠ 0) :
    (cb * (cc * wx - sc * wy) + sb * (sa * (sc * wx + cc * wy) + rho * wz) =
      (1 - 2 * y ^ 2 - 2 * z ^ 2) * wx + (2 * x * y - 2 * w * z) * wy +
        (2 * x * z + 2 * w * y) * wz) ∧
    (rho * (sc * wx + cc * wy) - sa * wz =
      (2 * x * y + 2 * w * z) * wx + (1 - 2 * x ^ 2 - 2 * z ^ 2) * wy +
        (2 * y * z - 2 * w * x) * wz) ∧
    (-sb * (cc * wx - sc * wy) + cb * (sa * (sc * wx + cc * wy) + rho * wz) =
      (2 * x * z - 2 * w * y) * wx + (2 * y * z + 2 * w * x) * wy +
        (1 - 2 * x ^ 2 - 2 * y ^ 2) * wz) := by
  have hrr : rho * rho ≠ 0 := mul_ne_zero hrne hrne
  refine ⟨mul_left_cancel₀ hrr ?_, mul_left_cancel₀ hrr ?_, mul_left_cancel₀ hrr ?_⟩
  · linear_combination (rho ^ 2 * sb * cc * wy + rho ^ 2 * sb * sc * wx) * hsa +
      (rho ^ 2 * wz + -2 * y * z * rho * cc * wy + -2 * y * z * rho * sc * wx +
        2 * x * w * rho * cc * wy + 2 * x * w * rho * sc * wx) * hsb +
      (rho * cc * wx + (-1) * rho * sc * wy) * hcb +
      ((-1) * wy + 2 * y ^ 2 * wy + -4 * y ^ 2 * z * w * wx + 4 * x * y * w ^ 2 * wx +
        -4 * x * y * z ^ 2 * wx + 2 * x ^ 2 * wy + 4 * x ^ 2 * z * w * wx) * hsc +
      (wx + -2 * y ^ 2 * wx + -4 * y ^ 2 * z * w * wy + 4 * x * y * w ^ 2 * wy +
        -4 * x * y * z ^ 2 * wy + -2 * x ^ 2 * wx + 4 * x ^ 2 * z * w * wy) * hcc +
      ((-1) * wx + 2 * z * w * wy + 2 * z ^ 2 * wx + 2 * y ^ 2 * wx +
        -2 * x * y * wy) * hrho +
      (2 * wx + -4 * y ^ 2 * wx + -8 * y ^ 2 * z * w * wy + -8 * y ^ 2 * z ^ 2 * wx +
        4 * x * y * wy + 8 * x * y * w ^ 2 * wy + 8 * x * y * z * w * wx) * hu
  · linear_combination ((-1) * rho ^ 2 * wz) * hsa + (rho ^ 2 * wx) * hsc +
      (rho ^ 2 * wy) * hcc +
      (-2 * wy + 2 * w ^ 2 * wy + 2 * z ^ 2 * wy + 2 * y ^ 2 * wy +
        2 * x ^ 2 * wy) * hrho +
      (2 * wy + -8 * y ^ 2 * z ^ 2 * wy + 16 * x * y * z * w * wy +
        -8 * x ^ 2 * w ^ 2 * wy) * hu
  · linear_combination (rho ^ 2 * cb * cc * wy + rho ^ 2 * cb * sc * wx) * hsa +
      ((-1) * rho * cc * wx + rho * sc * wy) * hsb +
      (rho ^ 2 * wz + -2 * y * z * rho * cc * wy + -2 * y * z * rho * sc * wx +
        2 * x * w * rho * cc * wy + 2 * x * w * rho * sc * wx) * hcb +
      (2 * y * w * wy + -2 * y * z * wx + 4 * y ^ 3 * z * wx + 2 * x * w * wx +
        2 * x * z * wy + -4 * x * y ^ 2 * w * wx + 4 * x ^ 2 * y * z * wx +
        -4 * x ^ 3 * w * wx) * hsc +
      (-2 * y * w * wx + -2 * y * z * wy + 4 * y ^ 3 * z * wy + 2 * x * w * wy +
        -2 * x * z * wx + -4 * x * y ^ 2 * w * wy + 4 * x ^ 2 * y * z * wy +
        -4 * x ^ 3 * w * wy) * hcc +
      (2 * y * w * wx + -2 * y * z * wy + -2 * x * w * wy + -2 * x * z * wx) * hrho +
      (-4 * y * w * wx + 8 * y ^ 3 * z * wy + 4 * x * w * wy +
        -8 * x * y ^ 2 * w * wy + 8 * x * y ^ 2 * z * wx +
        -8 * x ^ 2 * y * w * wx) * hu

/-- The composition of the three single-axis rotations at the angles
`_getEulerAngles` extracts acts exactly as the original unit quaternion,
away from the poles. -/
theorem extracted_action (x y z w : ℝ)
    (hu : x * x + y * y + z * z + w * w = 1)
    (hlt : (2 * x * w - 2 * y * z) ^ 2 < 1) (v : V3) :
    quatMulVec (qyQ (atan2 (2 * x * z + 2 * y * w) (1 - 2 * (y * y) - 2 * (x * x))))
      (quatMulVec (qxQ (Real.arcsin (2 * x * w - 2 * y * z)))
        (quatMulVec
          (qzQ (Real.pi -
            atan2 (2 * x * y + 2 * z * w) (1 - 2 * (y * y) - 2 * (w * w)))) v)) =
    quatMulVec ⟨x, y, z, w⟩ v := by
  obtain ⟨vx, vy, vz⟩ := v
  have h1m : (0 : ℝ) < 1 - (2 * x * w - 2 * y * z) ^ 2 := by linarith
  set rho := Real.sqrt (1 - (2 * x * w - 2 * y * z) ^ 2) with hrhodef
  have hrpos : 0 < rho := Real.sqrt_pos.mpr h1m
  have hrne : rho ≠ 0 := ne_of_gt hrpos
  have hrr : rho * rho = 1 - (2 * x * w - 2 * y * z) ^ 2 :=
    Real.mul_self_sqrt (le_of_lt h1m)
  have hsa : Real.sin (Real.arcsin (2 * x * w - 2 * y * z)) = 2 * x * w - 2 * y * z :=
    Real.sin_arcsin (by nlinarith) (by nlinarith)
  have hca : Real.cos (Real.arcsin (2 * x * w - 2 * y * z)) = rho := by
    rw [Real.cos_arcsin, hrhodef]
  have huv : (1 - 2 * (y * y) - 2 * (x * x)) ^ 2 + (2 * x * z + 2 * y * w) ^ 2 =
      1 - (2 * x * w - 2 * y * z) ^ 2 := by
    linear_combination (4 * y ^ 2 + 4 * x ^ 2) * hu
  have hzb : (⟨1 - 2 * (y * y) - 2 * (x * x), 2 * x * z + 2 * y * w⟩ : ℂ) ≠ 0 := by
    intro h0
    have hre := congrArg Complex.re h0
    have him := congrArg Complex.im h0
    simp only [Complex.zero_re, Complex.zero_im] at hre him
    nlinarith [huv, h1m]
  have habsb :
      Complex.abs ⟨1 - 2 * (y * y) - 2 * (x * x), 2 * x * z + 2 * y * w⟩ = rho := by
    rw [Complex.abs_apply, Complex.normSq_mk, hrhodef]
    congr 1
    linear_combination huv
  have hsb :
      Real.sin (atan2 (2 * x * z + 2 * y * w) (1 - 2 * (y * y) - 2 * (x * x))) * rho =
        2 * x * z + 2 * y * w := by
    rw [atan2, Complex.sin_arg, habsb]
    exact div_mul_cancel₀ _ hrne
  have hcb :
      Real.cos (atan2 (2 * x * z + 2 * y * w) (1 - 2 * (y * y) - 2 * (x * x))) * rho =
        1 - 2 * (y * y) - 2 * (x * x) := by
    rw [atan2, Complex.cos_arg hzb, habsb]
    exact div_mul_cancel₀ _ hrne
  have hst : (1 - 2 * (y * y) - 2 * (w * w)) ^ 2 + (2 * x * y + 2 * z * w) ^ 2 =
      1 - (2 * x * w - 2 * y * z) ^ 2 := by
    linear_combination (4 * w ^ 2 + 4 * y ^ 2) * hu
  have hzc : (⟨1 - 2 * (y * y) - 2 * (w * w), 2 * x * y + 2 * z * w⟩ : ℂ) ≠ 0 := by
    intro h0
    have hre := congrArg Complex.re h0
    have him := congrArg Complex.im h0
    simp only [Complex.zero_re, Complex.zero_im] at hre him
    nlinarith [hst, h1m]
  have habsc :
      Complex.abs ⟨1 - 2 * (y * y) - 2 * (w * w), 2 * x * y + 2 * z * w⟩ = rho := by
    rw [Complex.abs_apply, Complex.normSq_mk, hrhodef]
    congr 1
    linear_combination hst
  have hsc :
      Real.sin (Real.pi -
          atan2 (2 * x * y + 2 * z * w) (1 - 2 * (y * y) - 2 * (w * w))) * rho =
        2 * x * y + 2 * z * w := by
    rw [Real.sin_pi_sub, atan2, Complex.sin_arg, habsc]
    exact div_mul_cancel₀ _ hrne
  have hcc :
      Real.cos (Real.pi -
          atan2 (2 * x * y + 2 * z * w) (1 - 2 * (y * y) - 2 * (w * w))) * rho =
        -(1 - 2 * (y * y) - 2 * (w * w)) := by
    rw [Real.cos_pi_sub, atan2, Complex.cos_arg hzc, habsc]
    have h := div_mul_cancel₀ (1 - 2 * (y * y) - 2 * (w * w)) hrne
    linear_combination -h
  obtain ⟨e1, e2, e3⟩ :=
    euler_entries_comp x y z w rho
      (Real.sin (Real.arcsin (2 * x * w - 2 * y * z)))
      (Real.sin (atan2 (2 * x * z + 2 * y * w) (1 - 2 * (y * y) - 2 * (x * x))))
      (Real.cos (atan2 (2 * x * z + 2 * y * w) (1 - 2 * (y * y) - 2 * (x * x))))
      (Real.sin (Real.pi -
        atan2 (2 * x * y + 2 * z * w) (1 - 2 * (y * y) - 2 * (w * w))))
      (Real.cos (Real.pi -
        atan2 (2 * x * y + 2 * z * w) (1 - 2 * (y * y) - 2 * (w * w))))
      vx vy vz hu (by rw [hsa]) (by linear_combination hsb) (by linear_combination hcb)
      (by linear_combination hsc) (by linear_combination hcc) hrr hrne
  rw [act_qzQ, act_qxQ, act_qyQ, hca]
  dsimp only
  simp only [quatMulVec, V3.mk.injEq]
  refine ⟨by linear_combination e1, by linear_combination e2, by linear_combination e3⟩

/-- If a nonzero pivot component has equal square and proportional products
with a partner, all paired components agree up to one global sign. -/
theorem rigid_core (pv qv a1 a2 b1 b2 c1 c2 : ℝ) (hp : pv ≠ 0)
    (hsq : pv * pv = qv * qv) (h1 : pv * a1 = qv * a2) (h2 : pv * b1 = qv * b2)
    (h3 : pv * c1 = qv * c2) :
    (a1 = a2 ∧ b1 = b2 ∧ c1 = c2 ∧ pv = qv) ∨
    (a1 = -a2 ∧ b1 = -b2 ∧ c1 = -c2 ∧ pv = -qv) := by
  have hfac : (qv - pv) * (qv + pv) = 0 := by linear_combination -hsq
  rcases mul_eq_zero.mp hfac with hq | hq
  · left
    have hq' : qv = pv := by linarith
    subst hq'
    exact ⟨mul_left_cancel₀ hp h1, mul_left_cancel₀ hp h2,
      mul_left_cancel₀ hp h3, rfl⟩
  · right
    have hq' : qv = -pv := by linarith
    subst hq'
    refine ⟨mul_left_cancel₀ hp (by linear_combination h1),
      mul_left_cancel₀ hp (by linear_combination h2),
      mul_left_cancel₀ hp (by linear_combination h3), by ring⟩

/-- Two unit quaternions with the same action on every vector are equal up
to sign. -/
theorem action_rigidity (a b c d x y z w : ℝ)
    (h1 : normSqQ ⟨a, b, c, d⟩ = 1) (h2 : normSqQ ⟨x, y, z, w⟩ = 1)
    (h : ∀ v : V3, quatMulVec ⟨a, b, c, d⟩ v = quatMulVec ⟨x, y, z, w⟩ v) :
    Quat.mk a b c d = ⟨x, y, z, w⟩ ∨ Quat.mk a b c d = ⟨-x, -y, -z, -w⟩ := by
  simp only [normSqQ] at h1 h2
  have hv1 := h ⟨1, 0, 0⟩
  have hv2 := h ⟨0, 1, 0⟩
  have hv3 := h ⟨0, 0, 1⟩
  simp only [quatMulVec, V3.mk.injEq, mul_zero, mul_one, add_zero, zero_add] at hv1 hv2 hv3
  obtain ⟨c11, c21, c31⟩ := hv1
  obtain ⟨c12, c22, c32⟩ := hv2
  obtain ⟨c13, c23, c33⟩ := hv3
  have hab : a * b = x * y := by linear_combination (1 / 4) * c21 + (1 / 4) * c12
  have hdc : d * c = w * z := by linear_combination (1 / 4) * c21 - (1 / 4) * c12
  have hac : a * c = x * z := by linear_combination (1 / 4) * c31 + (1 / 4) * c13
  have hdb : d * b = w * y := by linear_combination (1 / 4) * c13 - (1 / 4) * c31
  have hbc : b * c = y * z := by linear_combination (1 / 4) * c32 + (1 / 4) * c23
  have hda : d * a = w * x := by linear_combination (1 / 4) * c32 - (1 / 4) * c23
  have ha2 : a * a = x * x := by
    linear_combination (-(1 / 4)) * c22 + (-(1 / 4)) * c33 + (1 / 4) * c11
  have hb2 : b * b = y * y := by
    linear_combination (-(1 / 4)) * c11 + (-(1 / 4)) * c33 + (1 / 4) * c22
  have hc2 : c * c = z * z := by
    linear_combination (-(1 / 4)) * c11 + (-(1 / 4)) * c22 + (1 / 4) * c33
  have hd2 : d * d = w * w := by linear_combination h1 - h2 - ha2 - hb2 - hc2
  by_cases hdz : d = 0
  · by_cases haz : a = 0
    · by_cases hbz : b = 0
      · have hcz : c ≠ 0 := by
          intro h0
          rw [hdz, haz, hbz, h0] at h1
          norm_num at h1
        rcases rigid_core c z a x b y d w hcz hc2 (by linear_combination hac)
            (by linear_combination hbc) (by linear_combination hdc) with
          ⟨e1, e2, e3, e4⟩ | ⟨e1, e2, e3, e4⟩
        · left; rw [e1, e2, e3, e4]
        · right; rw [e1, e2, e3, e4]
      · rcases rigid_core b y a x c z d w hbz hb2 (by linear_combination hab)
            (by linear_combination hbc) (by linear_combination hdb) with
          ⟨e1, e2, e3, e4⟩ | ⟨e1, e2, e3, e4⟩
        · left; rw [e1, e2, e3, e4]
        · right; rw [e1, e2, e3, e4]
    · rcases rigid_core a x b y c z d w haz ha2 (by linear_combination hab)
          (by linear_combination hac) (by linear_combination hda) with
        ⟨e1, e2, e3, e4⟩ | ⟨e1, e2, e3, e4⟩
      · left; rw [e1, e2, e3, e4]
      · right; rw [e1, e2, e3, e4]
  · rcases rigid_core d w a x b y c z hdz hd2 hda hdb hdc with
      ⟨e1, e2, e3, e4⟩ | ⟨e1, e2, e3, e4⟩
    · left; rw [e1, e2, e3, e4]
    · right; rw [e1, e2, e3, e4]

/-- `_normalizeRad` converts to degrees and shifts by a whole number of
full turns: converting its output back to radians (as `Euler` does) yields
the original radian value plus an integer multiple of 2*pi. -/
theorem normalizeRad_spec (rad : ℝ) :
    ∃ k : ℤ, normalizeRad rad * degToRad = rad + k * (2 * Real.pi) := by
  have hconv : rad * radToDeg * degToRad = rad := by
    simp only [radToDeg, degToRad]
    field_simp
  have h360 : (360 : ℝ) * degToRad = 2 * Real.pi := by
    simp only [degToRad]
    ring
  simp only [normalizeRad]
  split_ifs with hgt hlt
  · refine ⟨1 - ⌈rad * radToDeg / 360⌉, ?_⟩
    have hexp : (rad * radToDeg + 360 - 360 * (⌈rad * radToDeg / 360⌉ : ℤ)) * degToRad =
        rad * radToDeg * degToRad +
          (1 - (⌈rad * radToDeg / 360⌉ : ℤ)) * (360 * degToRad) := by
      ring
    rw [hexp, hconv, h360]
    push_cast
    ring
  · refine ⟨-⌊rad * radToDeg / 360⌋, ?_⟩
    have hexp : (rad * radToDeg - 360 * (⌊rad * radToDeg / 360⌋ : ℤ)) * degToRad =
        rad * radToDeg * degToRad +
          (-(⌊rad * radToDeg / 360⌋ : ℤ)) * (360 * degToRad) := by
      ring
    rw [hexp, hconv, h360]
    push_cast
    ring
  · exact ⟨0, by rw [hconv]; push_cast; ring⟩

/-- C1 (amended): for every unit quaternion q away from the gimbal-lock
poles, rebuilding via `Quaternion.Euler(q.eulerAngles.x, q.eulerAngles.y,
q.eulerAngles.z)` produces a quaternion that `equals` q or `equals` its
negation -q: the round trip holds up to quaternion sign. -/
theorem c1_euler_roundtrip_up_to_sign (x y z w : ℝ)
    (hu : unitQ ⟨x, y, z, w⟩)
    (hp1 : ¬ doublesEqual (x * w - y * z) 0.5)
    (hp2 : ¬ doublesEqual (x * w - y * z) (-0.5)) :
    ∃ q2 : Quat,
      eulerDeg (getEulerAngles ⟨x, y, z, w⟩).x (getEulerAngles ⟨x, y, z, w⟩).y
        (getEulerAngles ⟨x, y, z, w⟩).z = some q2 ∧
      (equalsQ q2 ⟨x, y, z, w⟩ ∨ equalsQ q2 ⟨-x, -y, -z, -w⟩) := by
  have hangles : getEulerAngles ⟨x, y, z, w⟩ =
      ⟨normalizeRad (Real.arcsin (2 * x * w - 2 * y * z)),
       normalizeRad (atan2 (2 * x * z + 2 * y * w) (1 - 2 * (y * y) - 2 * (x * x))),
       normalizeRad (Real.pi -
         atan2 (2 * x * y + 2 * z * w) (1 - 2 * (y * y) - 2 * (w * w)))⟩ := by
    simp only [getEulerAngles]
    rw [if_neg hp1, if_neg hp2]
  simp only [unitQ, normSqQ] at hu
  have hle : (2 * x * w - 2 * y * z) ^ 2 ≤ 1 := by
    nlinarith [mul_nonneg (by positivity : (0 : ℝ) ≤ (x - w) ^ 2 + (y + z) ^ 2)
      (by positivity : (0 : ℝ) ≤ (x + w) ^ 2 + (y - z) ^ 2)]
  have hlt : (2 * x * w - 2 * y * z) ^ 2 < 1 := by
    simp only [doublesEqual, eps, not_lt] at hp1 hp2
    have hup : x * w - y * z ≤ 1 / 2 := by nlinarith
    have hlo : -(1 / 2) ≤ x * w - y * z := by nlinarith
    have habs1 : |x * w - y * z - 0.5| = 1 / 2 - (x * w - y * z) := by
      rw [abs_of_nonpos (by linarith)]
      ring
    have habs2 : |x * w - y * z - -0.5| = x * w - y * z + 1 / 2 := by
      rw [abs_of_nonneg (by linarith)]
      ring
    rw [habs1] at hp1
    rw [habs2] at hp2
    nlinarith
  rw [hangles]
  dsimp only
  rw [eulerDeg]
  obtain ⟨k1, hk1⟩ := normalizeRad_spec (Real.arcsin (2 * x * w - 2 * y * z))
  obtain ⟨k2, hk2⟩ := normalizeRad_spec
    (atan2 (2 * x * z + 2 * y * w) (1 - 2 * (y * y) - 2 * (x * x)))
  obtain ⟨k3, hk3⟩ := normalizeRad_spec
    (Real.pi - atan2 (2 * x * y + 2 * z * w) (1 - 2 * (y * y) - 2 * (w * w)))
  rw [hk1, hk2, hk3]
  refine ⟨fromEulerRaw
      (Real.arcsin (2 * x * w - 2 * y * z) + k1 * (2 * Real.pi))
      (atan2 (2 * x * z + 2 * y * w) (1 - 2 * (y * y) - 2 * (x * x)) +
        k2 * (2 * Real.pi))
      (Real.pi - atan2 (2 * x * y + 2 * z * w) (1 - 2 * (y * y) - 2 * (w * w)) +
        k3 * (2 * Real.pi)), quatCtor_unit _ (fromEulerRaw_unit _ _ _), ?_⟩
  have hact : ∀ v : V3,
      quatMulVec (fromEulerRaw
        (Real.arcsin (2 * x * w - 2 * y * z) + k1 * (2 * Real.pi))
        (atan2 (2 * x * z + 2 * y * w) (1 - 2 * (y * y) - 2 * (x * x)) +
          k2 * (2 * Real.pi))
        (Real.pi - atan2 (2 * x * y + 2 * z * w) (1 - 2 * (y * y) - 2 * (w * w)) +
          k3 * (2 * Real.pi))) v = quatMulVec ⟨x, y, z, w⟩ v := by
    intro v
    rw [fromEulerRaw_mul,
      quatMulVec_mul _ _ _ (unitQ_qyQ _) (unitQ_mul (unitQ_qxQ _) (unitQ_qzQ _)),
      quatMulVec_mul _ _ _ (unitQ_qxQ _) (unitQ_qzQ _),
      act_qzQ_shift, act_qxQ_shift, act_qyQ_shift]
    exact extracted_action x y z w hu hlt v
  have hunit2 : normSqQ (fromEulerRaw
      (Real.arcsin (2 * x * w - 2 * y * z) + k1 * (2 * Real.pi))
      (atan2 (2 * x * z + 2 * y * w) (1 - 2 * (y * y) - 2 * (x * x)) +
        k2 * (2 * Real.pi))
      (Real.pi - atan2 (2 * x * y + 2 * z * w) (1 - 2 * (y * y) - 2 * (w * w)) +
        k3 * (2 * Real.pi))) = 1 := fromEulerRaw_unit _ _ _
  rcases action_rigidity _ _ _ _ x y z w hunit2 (by simp only [normSqQ]; exact hu)
      hact with h | h
  · exact Or.inl (equalsQ_of_eq h)
  · exact Or.inr (equalsQ_of_eq h)

theorem arg_one_mk : Complex.arg ⟨1, 0⟩ = 0 := by
  have h : (⟨1, 0⟩ : ℂ) = 1 := by
    apply Complex.ext <;> simp
  rw [h, Complex.arg_one]

theorem arg_neg_one_mk : Complex.arg ⟨-1, 0⟩ = Real.pi := by
  have h : (⟨-1, 0⟩ : ℂ) = -1 := by
    apply Complex.ext <;> simp
  rw [h, Complex.arg_neg_one]

theorem normalizeRad_zero : normalizeRad 0 = 0 := by
  simp only [normalizeRad, zero_mul]
  norm_num

theorem fromEulerRaw_zero : fromEulerRaw (0 * degToRad) (0 * degToRad) (0 * degToRad) =
    ⟨0, 0, 0, 1⟩ := by
  simp only [fromEulerRaw, zero_mul, zero_div, Real.sin_zero, Real.cos_zero,
    Quat.mk.injEq]
  norm_num

/-- C1 counterexample: the unit quaternion (0,0,0,-1) is away from both
poles, its Euler angles are (0,0,0), yet `Euler(0,0,0)` rebuilds (0,0,0,1),
which does not `equal` (0,0,0,-1): the round trip fails as stated (it only
holds up to sign). -/
theorem c1_counterexample :
    unitQ ⟨0, 0, 0, -1⟩ ∧
    ¬ doublesEqual ((0 : ℝ) * (-1) - 0 * 0) 0.5 ∧
    ¬ doublesEqual ((0 : ℝ) * (-1) - 0 * 0) (-0.5) ∧
    getEulerAngles ⟨0, 0, 0, -1⟩ = ⟨0, 0, 0⟩ ∧
    eulerDeg 0 0 0 = some ⟨0, 0, 0, 1⟩ ∧
    ¬ (∃ q2 : Quat,
        eulerDeg (getEulerAngles ⟨0, 0, 0, -1⟩).x (getEulerAngles ⟨0, 0, 0, -1⟩).y
          (getEulerAngles ⟨0, 0, 0, -1⟩).z = some q2 ∧
        equalsQ q2 ⟨0, 0, 0, -1⟩) := by
  have hangles : getEulerAngles ⟨0, 0, 0, -1⟩ = ⟨0, 0, 0⟩ := by
    simp only [getEulerAngles]
    rw [if_neg (by norm_num [doublesEqual, eps, abs_of_pos]),
      if_neg (by norm_num [doublesEqual, eps, abs_of_pos])]
    have h1 : (2 : ℝ) * 0 * (-1) - 2 * 0 * 0 = 0 := by norm_num
    have h2 : (2 : ℝ) * 0 * 0 + 2 * 0 * (-1) = 0 := by norm_num
    have h3 : (1 : ℝ) - 2 * (0 * 0) - 2 * (0 * 0) = 1 := by norm_num
    have h4 : (1 : ℝ) - 2 * (0 * 0) - 2 * (-1 * -1) = -1 := by norm_num
    rw [h1, h2, h3, h4, Real.arcsin_zero, atan2, atan2, arg_one_mk, arg_neg_one_mk,
      sub_self, normalizeRad_zero]
  have hbuild : eulerDeg 0 0 0 = some ⟨0, 0, 0, 1⟩ := by
    rw [eulerDeg, fromEulerRaw_zero]
    exact quatCtor_unit _ (by norm_num [normSqQ])
  have hne : ¬ equalsQ ⟨0, 0, 0, 1⟩ ⟨0, 0, 0, -1⟩ := by
    intro h
    have hw := h.2.2.2
    simp only [doublesEqual, eps] at hw
    norm_num at hw
  refine ⟨by norm_num [unitQ, normSqQ], by norm_num [doublesEqual, eps, abs_of_pos],
    by norm_num [doublesEqual, eps, abs_of_pos], hangles, hbuild, ?_⟩
  rintro ⟨q2, heq, hq⟩
  rw [hangles] at heq
  dsimp only at heq
  rw [hbuild] at heq
  simp only [Option.some.injEq] at heq
  subst heq
  exact hne hq

/-- Witness for C1 at the identity quaternion (0,0,0,1): unit, away from
both poles, and the rebuilt quaternion equals it up to sign. -/
theorem c1_witness :
    (unitQ ⟨0, 0, 0, 1⟩ ∧ ¬ doublesEqual ((0 : ℝ) * 1 - 0 * 0) 0.5 ∧
      ¬ doublesEqual ((0 : ℝ) * 1 - 0 * 0) (-0.5)) ∧
    (∃ q2 : Quat,
      eulerDeg (getEulerAngles ⟨0, 0, 0, 1⟩).x (getEulerAngles ⟨0, 0, 0, 1⟩).y
        (getEulerAngles ⟨0, 0, 0, 1⟩).z = some q2 ∧
      (equalsQ q2 ⟨0, 0, 0, 1⟩ ∨ equalsQ q2 ⟨-0, -0, -0, -1⟩)) :=
  ⟨⟨by norm_num [unitQ, normSqQ], by norm_num [doublesEqual, eps, abs_of_pos],
    by norm_num [doublesEqual, eps, abs_of_pos]⟩,
   c1_euler_roundtrip_up_to_sign 0 0 0 1 (by norm_num [unitQ, normSqQ])
     (by norm_num [doublesEqual, eps, abs_of_pos]) (by norm_num [doublesEqual, eps, abs_of_pos])⟩

end

end Math3d
